import Mathlib

/-!
Governance injection, discovery and audit of gas-guard (`gas-init.js`).

A shallow embedding of the file-handling core of `gas-init.js`.

* JavaScript strings are lists of characters (`Str`); the string methods the
  program uses (`split`, `trim`, `endsWith`, `startsWith`, `replace`, `join`)
  are defined on them.
* The file system is explicit state (`FS`): a partial map from resolved paths
  (lists of path components) to nodes, with the enumeration order of every
  directory. The `fs.*Sync` calls return `none` where Node.js would throw.
* The global `ACTIVE_RULES` and `__dirname` are passed as arguments.
-/

namespace GasGuard

/-! ## Strings -/

/-- A JavaScript string. -/
abbrev Str := List Char

/-- The code points `String.prototype.trim` strips: ECMAScript WhiteSpace and
LineTerminator. -/
def isJsWhitespace (c : Char) : Bool :=
  let n := c.toNat
  n = 9 || n = 10 || n = 11 || n = 12 || n = 13 || n = 32 || n = 160 ||
  n = 5760 || (8192 ≤ n && n ≤ 8202) || n = 8232 || n = 8233 || n = 8239 ||
  n = 8287 || n = 12288 || n = 65279

/-- The method `s.trim()`. -/
def jsTrim (s : Str) : Str :=
  ((s.dropWhile isJsWhitespace).reverse.dropWhile isJsWhitespace).reverse

/-- The method `s.split(sep)` for a one-character separator. -/
def jsSplit (sep : Char) : Str → List Str
  | [] => [[]]
  | c :: cs =>
    if c = sep then [] :: jsSplit sep cs
    else
      match jsSplit sep cs with
      | [] => [[c]]
      | l :: ls => (c :: l) :: ls

/-- The method `s.endsWith(suffix)`. -/
def jsEndsWith (s suffix : Str) : Bool := suffix.isSuffixOf s

/-- The method `s.startsWith(pre)`. -/
def jsStartsWith (s pre : Str) : Bool := pre.isPrefixOf s

/-- The method `s.replace(pat, rep)` for a string pattern: only the first
occurrence of `pat` is replaced. -/
def jsReplace (pat rep : Str) : Str → Str
  | [] => if pat = [] then rep else []
  | c :: cs =>
    if pat.isPrefixOf (c :: cs) then rep ++ (c :: cs).drop pat.length
    else c :: jsReplace pat rep cs

/-- The method `xs.join(sep)`. -/
def jsJoin (sep : Str) : List Str → Str
  | [] => []
  | [x] => x
  | x :: y :: ys => x ++ sep ++ jsJoin sep (y :: ys)

/-! ## File system -/

/-- A resolved absolute path, as its components. -/
abbrev Path := List String

/-- The call `path.join(dir, name)` for a single component `name`. -/
def pathJoin (dir : Path) (name : String) : Path := dir ++ [name]

/-- What a path names. -/
inductive Node where
  | file (content : Str)
  | dir
  deriving DecidableEq, Repr

/-- File-system state: the node at each path and, for directories, the names
`readdirSync` enumerates, in enumeration order. -/
@[ext]
structure FS where
  node : Path → Option Node
  entries : Path → List String

/-- The call `fs.existsSync(p)`. -/
def existsSync (fs : FS) (p : Path) : Bool := (fs.node p).isSome

/-- The test `dirent.isDirectory()` for the entry at `p`. -/
def isDirectory (fs : FS) (p : Path) : Bool :=
  match fs.node p with
  | some .dir => true
  | _ => false

/-- The call `fs.readFileSync(p, 'utf8')`; `none` where it throws (absent, or a
directory). -/
def readFileSync (fs : FS) (p : Path) : Option Str :=
  match fs.node p with
  | some (.file c) => some c
  | _ => none

/-- The call `fs.readdirSync(p)`; `none` where it throws. -/
def readdirSync (fs : FS) (p : Path) : Option (List String) :=
  if isDirectory fs p then some (fs.entries p) else none

/-- The directory listing after a file named `name` is created or rewritten: a
new name is enumerated last, an existing one keeps its place. -/
def addName (names : List String) (name : String) : List String :=
  if name ∈ names then names else names ++ [name]

/-- The state in which `p` is a regular file with content `c`. -/
def putFile (fs : FS) (p : Path) (c : Str) : FS where
  node := fun q => if q = p then some (.file c) else fs.node q
  entries := fun d =>
    if d = p.dropLast then
      match p.getLast? with
      | some name => addName (fs.entries d) name
      | none => fs.entries d
    else fs.entries d

/-- Whether a write to `p` can succeed: the parent is a directory and `p` is
not one. -/
def writable (fs : FS) (p : Path) : Bool :=
  isDirectory fs p.dropLast && !isDirectory fs p

/-- The call `fs.writeFileSync(p, c)`: full overwrite; `none` where it throws. -/
def writeFileSync (fs : FS) (p : Path) (c : Str) : Option FS :=
  if writable fs p then some (putFile fs p c) else none

/-- The call `fs.appendFileSync(p, c)`: creates the file when absent; `none`
where it throws. -/
def appendFileSync (fs : FS) (p : Path) (c : Str) : Option FS :=
  if writable fs p then
    some (putFile fs p ((readFileSync fs p).getD [] ++ c))
  else none

/-! ## Ignore-list merge (`smartUpdateGitignore`) -/

/-- The constant `CUSTOM_RULES_FILENAME`. -/
def CUSTOM_RULES_FILENAME : String := "my-rules.md"

/-- The local `essentialIgnores` of `smartUpdateGitignore`. -/
def essentialIgnores : List Str :=
  ["node_modules/".toList, ".clasp.json".toList, "creds.json".toList,
   ".DS_Store".toList, "dist/".toList, "*.log".toList,
   "package-lock.json".toList, ".clinerules".toList, ".cursorrules".toList,
   CUSTOM_RULES_FILENAME.toList]

/-- The body of `essentialIgnores.forEach` in `smartUpdateGitignore`: the
state is the file system and the `added` array. -/
def appendIfMissing (ignoreFile : Path) (lines : List Str)
    (st : FS × List Str) (item : Str) : Option (FS × List Str) :=
  if lines.contains item then some st
  else
    match appendFileSync st.1 ignoreFile (item ++ ['\n']) with
    | some fs1 => some (fs1, st.2 ++ [item])
    | none => none

/-- The function `smartUpdateGitignore(targetDir)`: returns the new state and
the `added` array. -/
def smartUpdateGitignore (fs : FS) (targetDir : Path) :
    Option (FS × List Str) :=
  let ignoreFile := pathJoin targetDir ".gitignore"
  let read : Option Str :=
    if existsSync fs ignoreFile then readFileSync fs ignoreFile else some []
  match read with
  | none => none
  | some content0 =>
    let normalized : Option (FS × Str) :=
      if content0.length > 0 && !jsEndsWith content0 ['\n'] then
        match appendFileSync fs ignoreFile ['\n'] with
        | some fs1 => some (fs1, content0 ++ ['\n'])
        | none => none
      else some (fs, content0)
    match normalized with
    | none => none
    | some (fs1, currentContent) =>
      let lines := (jsSplit '\n' currentContent).map jsTrim
      essentialIgnores.foldlM (appendIfMissing ignoreFile lines) (fs1, [])

/-! ## Injection (`injectGovernance`) -/

/-- The field `sourceType` of `ACTIVE_RULES`. -/
inductive SourceType where
  | template
  | external
  | file
  deriving DecidableEq, Repr

/-- The global `ACTIVE_RULES`, passed explicitly. -/
structure RuleSource where
  sourceType : SourceType
  name : Str
  content : Str
  deriving DecidableEq, Repr

/-- The object `injectGovernance` returns. -/
structure InjectResult where
  path : Path
  ignoreUpdated : Str
  deriving DecidableEq, Repr

/-- The function `injectGovernance(targetDir)` under the active rules `rules`. -/
def injectGovernance (rules : RuleSource) (fs : FS) (targetDir : Path) :
    Option (FS × InjectResult) :=
  match writeFileSync fs (pathJoin targetDir ".cursorrules") rules.content with
  | none => none
  | some fs1 =>
    match writeFileSync fs1 (pathJoin targetDir ".clinerules") rules.content with
    | none => none
    | some fs2 =>
      match smartUpdateGitignore fs2 targetDir with
      | none => none
      | some (fs3, addedIgnores) =>
        some (fs3,
          { path := targetDir
            ignoreUpdated :=
              if addedIgnores.length > 0 then jsJoin ", ".toList addedIgnores
              else "無須更新".toList })

/-! ## Template catalog (`loadTemplates`) -/

/-- An entry of the constant `BUILTIN_TEMPLATES`. -/
structure BuiltinTemplate where
  id : Str
  name : Str
  content : Str
  deriving DecidableEq, Repr

/-- The field `source` of a catalog entry. -/
inductive TemplateSource where
  | builtin
  | external
  deriving DecidableEq, Repr

/-- A catalog entry as `loadTemplates` returns it. -/
structure Template where
  id : Str
  name : Str
  content : Str
  source : TemplateSource
  deriving DecidableEq, Repr

/-- The entry `BUILTIN_TEMPLATES.hybrid`. -/
def builtinHybrid : BuiltinTemplate :=
  { id := "hybrid".toList
    name := "⚖️  全能混合模式 (Hybrid - 推薦)".toList
    content := "# GAS 高階執行顧問協定 (Hybrid Protocol v5.0)\n\n## 1. 核心原則：成本與架構並重\n- **成本意識 (Cost Discipline)：** 預設使用 **Gemini 1.5 Flash**。嚴禁讀取 \x60package-lock.json\x60 或 \x60*.log\x60。\n- **思考夥伴 (Thinking Partner)：** 你不是單純的執行者，而是架構顧問。若需求有邏輯漏洞或維運風險，必須在「階段一」提出挑戰。\n\n## 2. 強制性兩階段作業 (Two-Phase Protocol)\n### 階段一：對焦與規劃 (Phase 1: Plan)\n在產出 Code 之前，提交一份簡短報告：\n1. **需求本質：** 你理解的核心目標。\n2. **顧問式挑戰：** 指出潛在風險 (Race Condition, Quota) 並提出替代方案。\n3. **執行藍圖：** 預計修改哪些檔案？\n4. **暫停點：** 等待用戶回覆「Go」。\n\n### 階段二：執行與交付 (Phase 2: Execute)\n- 獲得授權後，精準執行。\n- 交付後主動建議下一步 (Next Step)。\n\n## 3. GAS 技術邊界\n- **物理隔離：** 源碼存放於 \x60src/\x60。\n- **環境保護：** 嚴禁使用 \x60require\x60 (除非測試)，僅限原生 V8。\n- **批次原則：** 禁止迴圈內讀寫 Spreadsheet。\n".toList }

/-- The entry `BUILTIN_TEMPLATES.architect`. -/
def builtinArchitect : BuiltinTemplate :=
  { id := "architect".toList
    name := "🧠 高階架構顧問 (Architect - 嚴格版)".toList
    content := "# GAS 高階執行顧問暨思考夥伴協定 (Executive Protocol)\n\n## 1. 定位與角色：思考夥伴 (Thinking Partner)\n- **非單純執行者：** 你是負責架構決策與邏輯驗證的顧問。嚴禁在未經思考的情況下直接轉譯用戶指令。\n- **架構優於代碼：** 你的核心價值是「預測問題」而非「解決語法」。\n- **建設性冒犯：** 如果用戶需求會導致維運困難，你必須在「階段一」直接提出挑戰。\n\n## 2. 強制性兩階段作業 (Two-Phase Protocol)\n### 階段一：對焦與規劃 (Phase 1: Plan)\n1. **需求本質重述**\n2. **顧問式挑戰 (Mandatory Challenge)：** 找出邏輯漏洞或執行風險。\n3. **執行藍圖**\n4. **互動確認：** 暫停並等待用戶回覆「Go/可以」。\n\n### 階段二：執行與交付\n- 獲得授權後才開始產出代碼。\n\n## 3. GAS 技術邊界與行為慣例\n- **物理隔離：** 源碼必須嚴格存放於 \x60src/\x60。\n- **機密不落地：** 嚴禁硬編碼。\n- **批次處理原則：** 禁止在迴圈內頻繁讀寫 Spreadsheet。\n\n## 4. 溝通風格\n- 精準、冷靜、精練。\n- 刪除「好的、沒問題」等贅詞，直接從邏輯辯證開始。\n".toList }

/-- The entry `BUILTIN_TEMPLATES.cost_saver`. -/
def builtinCostSaver : BuiltinTemplate :=
  { id := "cost_saver".toList
    name := "💰 成本極簡模式 (Cost Saver - 省錢版)".toList
    content := "# GAS 成本控管協定 (Cost Protocol v4.0)\n\n## 1. 絕對指令：省錢優先\n你的運作消耗使用者的付費額度。你必須遵守以下「止血」原則：\n- **模型強制：** 除非使用者明確要求，否則**必須**使用 **Gemini 1.5 Flash**。\n- **Token 節流：** - 嚴禁讀取 \x60package-lock.json\x60 或 \x60*.log\x60。\n    - 禁止使用 \x60ls -R\x60 或讀取超過 2 個非相關檔案。\n    - 執行測試或指令時，必須加上 \x60--silent\x60。\n\n## 2. 作業流程\n- 直接給出 Code Diff，不要重寫整支檔案。\n- 不要解釋太多原理，直接給修復方案。\n".toList }

/-- The values of the constant `BUILTIN_TEMPLATES`, in key order, as
`Object.values` lists them. -/
def BUILTIN_TEMPLATES : List BuiltinTemplate :=
  [builtinHybrid, builtinArchitect, builtinCostSaver]

/-- The constant `TEMPLATE_DIR`, for the tool directory `selfDir`
(`__dirname`). -/
def TEMPLATE_DIR (selfDir : Path) : Path := pathJoin selfDir "templates"

/-- The body of `files.forEach` in `loadTemplates`: the entry pushed for the
file name `f`; `none` where `readFileSync` throws. -/
def loadExternal (fs : FS) (selfDir : Path) (f : String) : Option Template :=
  let id := jsReplace ".md".toList [] f.toList
  match readFileSync fs (pathJoin (TEMPLATE_DIR selfDir) f) with
  | none => none
  | some content =>
    let firstLine := (jsSplit '\n' content).find? (fun l => jsStartsWith l "# ".toList)
    let displayName :=
      match firstLine with
      | some l => if l.isEmpty then id else jsTrim (jsReplace "# ".toList [] l)
      | none => id
    some { id := id, name := "📂 ".toList ++ displayName, content := content,
           source := .external }

/-- The loop `files.forEach` of `loadTemplates`: the `external` array. -/
def loadExternals (fs : FS) (selfDir : Path) : List String → Option (List Template)
  | [] => some []
  | f :: rest =>
    match loadExternal fs selfDir f with
    | none => none
    | some t =>
      match loadExternals fs selfDir rest with
      | none => none
      | some ts => some (t :: ts)

/-- The function `loadTemplates()`. -/
def loadTemplates (fs : FS) (selfDir : Path) : Option (List Template) :=
  let external : Option (List Template) :=
    if existsSync fs (TEMPLATE_DIR selfDir) then
      match readdirSync fs (TEMPLATE_DIR selfDir) with
      | none => none
      | some names =>
        loadExternals fs selfDir
          (names.filter (fun f => jsEndsWith f.toList ".md".toList))
    else some []
  match external with
  | none => none
  | some ext =>
    if ext.length > 0 then some ext
    else
      some (BUILTIN_TEMPLATES.map (fun t =>
        { id := t.id, name := t.name, content := t.content, source := .builtin }))

/-! ## Discovery (`findGasProjects`) -/

/-- The function `findGasProjects(baseDir)` for the tool directory `selfDir`
(`__dirname`); `baseDir` is the resolved base (`path.resolve(baseDir)`).
`none` where `readdirSync` throws. -/
def findGasProjects (fs : FS) (selfDir : Path) (baseDir : Path) :
    Option (List Path) :=
  if !existsSync fs baseDir then some []
  else
    match readdirSync fs baseDir with
    | none => none
    | some names =>
      some ((((names.filter (fun n => isDirectory fs (pathJoin baseDir n))).map
                (fun n => pathJoin baseDir n)).filter
              (fun dirPath => decide (dirPath ≠ selfDir))).filter
            (fun dirPath => existsSync fs (pathJoin dirPath ".clasp.json")))

/-! ## Audit (`auditDashboard`) -/

/-- An element of `reportData` in `auditDashboard`; `isProtected` is the field
`protected`. -/
structure ReportEntry where
  index : Nat
  path : Path
  name : String
  id : Str
  isProtected : Bool
  deriving DecidableEq, Repr

/-- The call `path.basename(p)`. -/
def basename (p : Path) : String := (p.getLast?).getD ""

/-- The callback of `projects.map` in `auditDashboard` (lines 297-306).
`claspScriptId txt` stands for `JSON.parse(txt).scriptId` and its use: `none`
when the `try` block throws, `some none` when the field is falsy, `some (some
s)` when it is the string `s`. -/
def reportEntry (fs : FS) (claspScriptId : Str → Option (Option Str))
    (projPath : Path) (index : Nat) : ReportEntry :=
  let dirName := basename projPath
  let scriptId : Str :=
    match readFileSync fs (pathJoin projPath ".clasp.json") with
    | none => "Unknown".toList
    | some txt =>
      match claspScriptId txt with
      | none => "Unknown".toList
      | some none => "N/A".toList
      | some (some sid) => sid.take 15 ++ "...".toList
  let hasRules := existsSync fs (pathJoin projPath ".clinerules")
  { index := index + 1, path := projPath, name := dirName, id := scriptId,
    isProtected := hasRules }

/-- The call `projects.map((projPath, index) => ...)`, from index `i` on. -/
def reportFrom (fs : FS) (claspScriptId : Str → Option (Option Str)) :
    Nat → List Path → List ReportEntry
  | _, [] => []
  | i, p :: ps =>
    reportEntry fs claspScriptId p i :: reportFrom fs claspScriptId (i + 1) ps

/-- The `reportData` that `auditDashboard(scanPath)` builds (lines 294-306);
`none` where discovery throws. -/
def auditReport (fs : FS) (selfDir : Path)
    (claspScriptId : Str → Option (Option Str)) (scanPath : Path) :
    Option (List ReportEntry) :=
  match findGasProjects fs selfDir scanPath with
  | none => none
  | some projects => some (reportFrom fs claspScriptId 0 projects)

/-- The loop `risky.forEach` of the `fix` command: one injection per entry, in
order; `none` where an injection throws. -/
def injectEach (rules : RuleSource) : List ReportEntry → FS → Option FS
  | [], fs => some fs
  | d :: ds, fs =>
    match injectGovernance rules fs d.path with
    | none => none
    | some (fs1, _) => injectEach rules ds fs1

/-- The `fix` command of `auditDashboard` (lines 335-350): the new state and
the new `reportData`. The elements of `risky` are the objects of `reportData`
themselves, so `d.protected = true` in the loop sets the flag of every
unprotected entry of `reportData`. -/
def auditFix (rules : RuleSource) (fs : FS) (reportData : List ReportEntry) :
    Option (FS × List ReportEntry) :=
  let risky := reportData.filter (fun d => !d.isProtected)
  if risky.length = 0 then some (fs, reportData)
  else
    match injectEach rules risky fs with
    | none => none
    | some fs1 =>
      some (fs1, reportData.map (fun d =>
        if !d.isProtected then { d with isProtected := true } else d))

/-! ## Rule source selection (`switchRuleSource`) -/

/-- The function `switchRuleSource(templates)` under the active rules
`active`: the new state and the new `ACTIVE_RULES`. `idx` is the value of
`parseInt(choice)`, `none` for `NaN` (every comparison with it is false);
`none` as result where a call throws. -/
def switchRuleSource (fs : FS) (selfDir : Path) (active : RuleSource)
    (templates : List Template) (idx : Option Int) : Option (FS × RuleSource) :=
  let customIdx : Int := templates.length + 1
  let exportIdx : Int := templates.length + 2
  match idx with
  | none => some (fs, active)
  | some i =>
    if 1 ≤ i ∧ i ≤ templates.length then
      match templates.get? (i - 1).toNat with
      | none => none
      | some selected =>
        some (fs,
          { sourceType :=
              if selected.source = TemplateSource.builtin then SourceType.template
              else SourceType.external
            name := selected.name
            content := selected.content })
    else if i = customIdx then
      let filePath := pathJoin selfDir CUSTOM_RULES_FILENAME
      if existsSync fs filePath then
        match readFileSync fs filePath with
        | none => none
        | some content =>
          some (fs,
            { sourceType := SourceType.file
              name := "外部檔案 (".toList ++ CUSTOM_RULES_FILENAME.toList ++ ")".toList
              content := content })
      else some (fs, active)
    else if i = exportIdx then
      let filePath := pathJoin selfDir CUSTOM_RULES_FILENAME
      match writeFileSync fs filePath active.content with
      | none => none
      | some fs1 => some (fs1, active)
    else some (fs, active)

/-! ## Statement vocabulary for the ignore-list -/

/-- The trimmed lines of an ignore-list content, as `smartUpdateGitignore`
computes them. -/
def trimmedLines (c : Str) : List Str := (jsSplit '\n' c).map jsTrim

/-- The required patterns that equal no trimmed line of `c`, in declaration
order. -/
def missingPatterns (c : Str) : List Str :=
  essentialIgnores.filter (fun p => !(trimmedLines c).contains p)

/-- The content `c`, with one newline added when it is non-empty and does not
end in one. -/
def withFinalNewline (c : Str) : Str :=
  if c.length > 0 && !jsEndsWith c ['\n'] then c ++ ['\n'] else c

/-- The patterns `ps` written one per line. -/
def asLines (ps : List Str) : Str := (ps.map (fun p => p ++ ['\n'])).flatten

/-- The content of the ignore-list of `targetDir`, empty when there is none. -/
def ignoreContent (fs : FS) (targetDir : Path) : Str :=
  (readFileSync fs (pathJoin targetDir ".gitignore")).getD []

/-- The state after the patterns `ps` were appended to the file at `p`. -/
def appended (fs : FS) (p : Path) (ps : List Str) : FS :=
  if ps = [] then fs
  else putFile fs p ((readFileSync fs p).getD [] ++ asLines ps)

/-- The state `smartUpdateGitignore` leaves: untouched when the ignore-list
needs neither the final newline nor a pattern, else the ignore-list rewritten
with its merged content. -/
def mergedState (fs : FS) (targetDir : Path) : FS :=
  let c := ignoreContent fs targetDir
  if withFinalNewline c = c ∧ missingPatterns c = [] then fs
  else putFile fs (pathJoin targetDir ".gitignore")
    (withFinalNewline c ++ asLines (missingPatterns c))

/-- The lines of a text: the pieces between newlines, where a final newline
ends the last line instead of opening an empty one. -/
def textLines (c : Str) : List Str :=
  if c = [] ∨ jsEndsWith c ['\n'] = true then (jsSplit '\n' c).dropLast
  else jsSplit '\n' c

/-- A target that can be injected into: an existing directory in which none
of the three file names is taken by a directory. -/
def injectable (fs : FS) (t : Path) : Prop :=
  isDirectory fs t = true ∧
  isDirectory fs (pathJoin t ".cursorrules") = false ∧
  isDirectory fs (pathJoin t ".clinerules") = false ∧
  isDirectory fs (pathJoin t ".gitignore") = false

instance (fs : FS) (t : Path) : Decidable (injectable fs t) := by
  unfold injectable
  infer_instance

/-- A sequence of injections into one target, the `i`-th under the rule source
`rs[i]` active at that time. -/
def injectSeq (t : Path) : List RuleSource → FS → Option FS
  | [], fs => some fs
  | r :: rs, fs =>
    match injectGovernance r fs t with
    | some (fs1, _) => injectSeq t rs fs1
    | none => none

/-- The state after the two rule-surface files of `t` were overwritten with
`c`. -/
def rulesWritten (fs : FS) (t : Path) (c : Str) : FS :=
  putFile (putFile fs (pathJoin t ".cursorrules") c) (pathJoin t ".clinerules") c

/-- The text `injectGovernance` reports for the appended patterns. -/
def ignoreReport (added : List Str) : Str :=
  if added.length > 0 then jsJoin ", ".toList added else "無須更新".toList

/-- The ignore-list content `smartUpdateGitignore` leaves for the prior
content `c`. -/
def mergedContent (c : Str) : Str :=
  withFinalNewline c ++ asLines (missingPatterns c)

/-! ## Example states -/

/-- The project directory used in the examples. -/
def exProj : Path := ["work", "proj"]

/-- A state with the project `/work/proj`: a marker file and an ignore-list
holding the single line `dist/` with no final newline. -/
def exFS : FS where
  node := fun p =>
    if p = ["work"] then some .dir
    else if p = ["work", "proj"] then some .dir
    else if p = ["work", "proj", ".clasp.json"] then some (.file "\x7b\x7d".toList)
    else if p = ["work", "proj", ".gitignore"] then some (.file "dist/".toList)
    else none
  entries := fun d =>
    if d = ["work"] then ["proj"]
    else if d = ["work", "proj"] then [".clasp.json", ".gitignore"]
    else []

/-- A rule source used in the examples. -/
def exRules : RuleSource :=
  { sourceType := .file, name := "rules".toList, content := "# R\n".toList }

/-- A state with the project `/work/proj` that has no ignore-list. -/
def exFSBare : FS where
  node := fun p =>
    if p = ["work"] then some .dir
    else if p = ["work", "proj"] then some .dir
    else if p = ["work", "proj", ".clasp.json"] then some (.file "\x7b\x7d".toList)
    else none
  entries := fun d =>
    if d = ["work"] then ["proj"]
    else if d = ["work", "proj"] then [".clasp.json"]
    else []

/-- The tool directory used in the examples. -/
def exSelf : Path := ["work", "tool"]

/-- A state whose template directory holds the single file `foo.md`, with the
first heading line `# Foo Rules`. -/
def exFSFoo : FS where
  node := fun p =>
    if p = ["work"] then some .dir
    else if p = ["work", "tool"] then some .dir
    else if p = ["work", "tool", "templates"] then some .dir
    else if p = ["work", "tool", "templates", "foo.md"] then
      some (.file "intro\n# Foo Rules\nbody\n".toList)
    else none
  entries := fun d =>
    if d = ["work"] then ["tool"]
    else if d = ["work", "tool"] then ["templates"]
    else if d = ["work", "tool", "templates"] then ["foo.md"]
    else []

/-- A state whose template directory holds the two files `x.mdy.md` and
`xy.md.md`. -/
def exFSTwo : FS where
  node := fun p =>
    if p = ["work"] then some .dir
    else if p = ["work", "tool"] then some .dir
    else if p = ["work", "tool", "templates"] then some .dir
    else if p = ["work", "tool", "templates", "x.mdy.md"] then some (.file "a".toList)
    else if p = ["work", "tool", "templates", "xy.md.md"] then some (.file "b".toList)
    else none
  entries := fun d =>
    if d = ["work"] then ["tool"]
    else if d = ["work", "tool"] then ["templates"]
    else if d = ["work", "tool", "templates"] then ["x.mdy.md", "xy.md.md"]
    else []

/-- The markdown files of the external template directory: the names it
enumerates that end in `.md`, in enumeration order. -/
def markdownFiles (fs : FS) (selfDir : Path) : List String :=
  (fs.entries (TEMPLATE_DIR selfDir)).filter (fun f => jsEndsWith f.toList ".md".toList)

/-- The three built-in catalog entries, in declaration order. -/
def builtinCatalog : List Template :=
  [ { id := "hybrid".toList, name := builtinHybrid.name,
      content := builtinHybrid.content, source := .builtin },
    { id := "architect".toList, name := builtinArchitect.name,
      content := builtinArchitect.content, source := .builtin },
    { id := "cost_saver".toList, name := builtinCostSaver.name,
      content := builtinCostSaver.content, source := .builtin } ]

/-- A base directory `/scan` with three subdirectories `a`, `b`, `c` and a
plain file `notes.txt`: `a` and `c` hold a marker file, `b` holds none but has
a nested directory `inner` that does; `a` holds only `.cursorrules`, `c` holds
only `.clinerules`. -/
def exFSScan : FS where
  node := fun p =>
    if p = ["scan"] then some .dir
    else if p = ["scan", "a"] then some .dir
    else if p = ["scan", "a", ".clasp.json"] then some (.file "\x7b\x7d".toList)
    else if p = ["scan", "a", ".cursorrules"] then some (.file "old".toList)
    else if p = ["scan", "notes.txt"] then some (.file "n".toList)
    else if p = ["scan", "b"] then some .dir
    else if p = ["scan", "b", "inner"] then some .dir
    else if p = ["scan", "b", "inner", ".clasp.json"] then some (.file "\x7b\x7d".toList)
    else if p = ["scan", "c"] then some .dir
    else if p = ["scan", "c", ".clasp.json"] then some (.file "\x7b\x7d".toList)
    else if p = ["scan", "c", ".clinerules"] then some (.file "old".toList)
    else none
  entries := fun d =>
    if d = ["scan"] then ["a", "notes.txt", "b", "c"]
    else if d = ["scan", "a"] then [".clasp.json", ".cursorrules"]
    else if d = ["scan", "b"] then ["inner"]
    else if d = ["scan", "b", "inner"] then [".clasp.json"]
    else if d = ["scan", "c"] then [".clasp.json", ".clinerules"]
    else []

/-- A marker-file reader for the examples: every parse fails. -/
def exParse : Str → Option (Option Str) := fun _ => none

/-- The audit report of the example base `/scan`: `a` unprotected, `c`
protected. -/
def exReport : List ReportEntry :=
  [ { index := 1, path := ["scan", "a"], name := "a", id := "Unknown".toList,
      isProtected := false },
    { index := 2, path := ["scan", "c"], name := "c", id := "Unknown".toList,
      isProtected := true } ]

/-- A state with the tool directory `/work/tool` holding the script and no
`my-rules.md`. -/
def exFSTool : FS where
  node := fun p =>
    if p = ["work"] then some .dir
    else if p = ["work", "tool"] then some .dir
    else if p = ["work", "tool", "gas-init.js"] then some (.file "main()".toList)
    else none
  entries := fun d =>
    if d = ["work"] then ["tool"]
    else if d = ["work", "tool"] then ["gas-init.js"]
    else []

/-! ## Lemmas: strings -/

theorem jsSplit_ne_nil (sep : Char) (s : Str) : jsSplit sep s ≠ [] := by
  cases s with
  | nil => simp [jsSplit]
  | cons c cs =>
    unfold jsSplit
    split
    · simp
    · split <;> simp

theorem jsSplit_append_sep (sep : Char) (a b : Str) :
    jsSplit sep (a ++ sep :: b) = jsSplit sep a ++ jsSplit sep b := by
  induction a with
  | nil => simp [jsSplit]
  | cons c cs ih =>
    by_cases h : c = sep
    · simp [jsSplit, h, ih]
    · have hne := jsSplit_ne_nil sep cs
      cases hs : jsSplit sep cs with
      | nil => exact absurd hs hne
      | cons l ls => simp [jsSplit, h, ih, hs]

theorem jsSplit_no_sep (sep : Char) (s : Str) (h : sep ∉ s) :
    jsSplit sep s = [s] := by
  induction s with
  | nil => simp [jsSplit]
  | cons c cs ih =>
    have hc : c ≠ sep := fun e => h (by simp [e])
    have hcs : sep ∉ cs := fun e => h (by simp [e])
    simp [jsSplit, hc, ih hcs]

theorem jsEndsWith_newline_iff (s : Str) :
    jsEndsWith s ['\n'] = true ↔ ∃ t, s = t ++ ['\n'] := by
  unfold jsEndsWith
  rw [List.isSuffixOf_iff_suffix]
  constructor
  · rintro ⟨t, ht⟩
    exact ⟨t, ht.symm⟩
  · rintro ⟨t, rfl⟩
    exact ⟨t, rfl⟩

theorem trimmedLines_append_newline (c : Str) :
    trimmedLines (c ++ ['\n']) = trimmedLines c ++ [[]] := by
  unfold trimmedLines
  rw [jsSplit_append_sep]
  simp [jsSplit, jsTrim]

theorem trimmedLines_append_sep (a b : Str) :
    trimmedLines (a ++ '\n' :: b) = trimmedLines a ++ trimmedLines b := by
  unfold trimmedLines
  rw [jsSplit_append_sep, List.map_append]

/-- Facts about the required patterns, by evaluation of the list. -/
theorem essentialIgnores_facts :
    ∀ p ∈ essentialIgnores, p ≠ [] ∧ '\n' ∉ p ∧ jsTrim p = p := by
  decide

theorem essentialIgnores_nodup : essentialIgnores.Nodup := by
  decide

theorem essentialIgnores_length : essentialIgnores.length = 10 := by
  decide

theorem withFinalNewline_extends (c : Str) : c <+: withFinalNewline c := by
  unfold withFinalNewline
  split
  · exact List.prefix_append _ _
  · exact List.prefix_refl _

theorem mem_trimmedLines_withFinalNewline (c p : Str) (hp : p ≠ []) :
    p ∈ trimmedLines (withFinalNewline c) ↔ p ∈ trimmedLines c := by
  unfold withFinalNewline
  split
  · rw [trimmedLines_append_newline]
    simp only [List.mem_append, List.mem_singleton]
    constructor
    · rintro (h | h)
      · exact h
      · exact absurd h hp
    · exact fun h => Or.inl h
  · rfl

/-! ## Lemmas: file system -/

theorem node_putFile (fs : FS) (p q : Path) (c : Str) :
    (putFile fs p c).node q = if q = p then some (.file c) else fs.node q := rfl

theorem readFileSync_putFile_same (fs : FS) (p : Path) (c : Str) :
    readFileSync (putFile fs p c) p = some c := by
  simp [readFileSync, putFile]

theorem readFileSync_putFile_ne (fs : FS) (p q : Path) (c : Str) (h : q ≠ p) :
    readFileSync (putFile fs p c) q = readFileSync fs q := by
  simp [readFileSync, putFile, h]

theorem isDirectory_putFile_ne (fs : FS) (p q : Path) (c : Str) (h : q ≠ p) :
    isDirectory (putFile fs p c) q = isDirectory fs q := by
  simp [isDirectory, putFile, h]

theorem isDirectory_putFile_same (fs : FS) (p : Path) (c : Str) :
    isDirectory (putFile fs p c) p = false := by
  simp [isDirectory, putFile]

theorem dropLast_ne_of_writable (fs : FS) (p : Path) (h : writable fs p = true) :
    p.dropLast ≠ p := by
  intro e
  unfold writable at h
  rw [e] at h
  cases hd : isDirectory fs p <;> simp [hd] at h

theorem writable_putFile_same (fs : FS) (p : Path) (c : Str)
    (h : writable fs p = true) : writable (putFile fs p c) p = true := by
  have hne := dropLast_ne_of_writable fs p h
  unfold writable at h ⊢
  rw [isDirectory_putFile_ne fs p _ c hne, isDirectory_putFile_same]
  simp only [Bool.and_eq_true] at h
  simp [h.1]

theorem addName_addName (names : List String) (name : String) :
    addName (addName names name) name = addName names name := by
  unfold addName
  by_cases h : name ∈ names <;> simp [h]

theorem putFile_putFile_same (fs : FS) (p : Path) (a b : Str) :
    putFile (putFile fs p a) p b = putFile fs p b := by
  ext1
  · funext q
    simp only [putFile]
    split <;> rfl
  · funext d
    simp only [putFile]
    by_cases hd : d = p.dropLast
    · simp only [hd, if_true]
      cases p.getLast? with
      | none => rfl
      | some name => exact addName_addName _ _
    · simp only [hd, if_false]

theorem putFile_eq_self (fs : FS) (p : Path) (c : Str) (name : String)
    (hn : fs.node p = some (.file c)) (hl : p.getLast? = some name)
    (he : name ∈ fs.entries p.dropLast) : putFile fs p c = fs := by
  ext1
  · funext q
    simp only [putFile]
    split
    · next h => rw [h, hn]
    · rfl
  · funext d
    simp only [putFile]
    by_cases hd : d = p.dropLast
    · simp only [hd, if_true, hl, addName, he]
    · simp only [hd, if_false]

theorem appendFileSync_eq (fs : FS) (p : Path) (c : Str) (h : writable fs p = true) :
    appendFileSync fs p c = some (putFile fs p ((readFileSync fs p).getD [] ++ c)) := by
  simp [appendFileSync, h]

/-! ## Lemmas: the append loop -/

theorem asLines_cons (x : Str) (xs : List Str) :
    asLines (x :: xs) = x ++ '\n' :: asLines xs := by
  simp [asLines]

theorem appended_cons (fs : FS) (p : Path) (x : Str) (xs : List Str) :
    appended (putFile fs p ((readFileSync fs p).getD [] ++ (x ++ ['\n']))) p xs
      = appended fs p (x :: xs) := by
  unfold appended
  by_cases h : xs = []
  · subst h
    simp [asLines]
  · simp only [h, if_false, readFileSync_putFile_same, Option.getD_some,
      putFile_putFile_same, asLines_cons]
    simp

theorem foldlM_appendIfMissing (p : Path) (lines : List Str) (items : List Str) :
    ∀ (fs : FS) (acc : List Str), writable fs p = true →
      items.foldlM (appendIfMissing p lines) (fs, acc)
        = some (appended fs p (items.filter (fun i => !lines.contains i)),
                acc ++ items.filter (fun i => !lines.contains i)) := by
  induction items with
  | nil =>
    intro fs acc _
    simp [appended]
  | cons x xs ih =>
    intro fs acc hw
    rw [List.foldlM_cons]
    by_cases hx : x ∈ lines
    · have h1 : appendIfMissing p lines (fs, acc) x = some (fs, acc) := by
        simp [appendIfMissing, hx]
      rw [h1]
      simp only [Option.some_bind, Option.bind_eq_bind]
      rw [ih fs acc hw]
      simp [List.filter_cons, hx]
    · have h1 : appendIfMissing p lines (fs, acc) x
          = some (putFile fs p ((readFileSync fs p).getD [] ++ (x ++ ['\n'])),
                  acc ++ [x]) := by
        simp only [appendIfMissing, appendFileSync_eq fs p _ hw]
        simp [hx]
      rw [h1]
      simp only [Option.some_bind, Option.bind_eq_bind]
      rw [ih _ _ (writable_putFile_same fs p _ hw), appended_cons]
      simp [List.filter_cons, hx]

/-! ## Lemmas: `smartUpdateGitignore` -/

theorem missingPatterns_nil : missingPatterns [] = essentialIgnores := by
  decide

theorem filter_lines_withFinalNewline (c : Str) :
    essentialIgnores.filter
        (fun i => !((jsSplit '\n' (withFinalNewline c)).map jsTrim).contains i)
      = missingPatterns c := by
  unfold missingPatterns
  apply List.filter_congr
  intro p hp
  have hne := (essentialIgnores_facts p hp).1
  have h := mem_trimmedLines_withFinalNewline c p hne
  unfold trimmedLines at h
  have hc : ∀ l : List Str, l.contains p = decide (p ∈ l) := fun l => by simp
  show (!((jsSplit '\n' (withFinalNewline c)).map jsTrim).contains p)
      = (!((jsSplit '\n' c).map jsTrim).contains p)
  rw [hc, hc]
  congr 1
  exact decide_eq_decide.mpr h

theorem not_isDirectory_of_writable (fs : FS) (p : Path) (h : writable fs p = true) :
    isDirectory fs p = false := by
  unfold writable at h
  cases hd : isDirectory fs p <;> simp [hd] at h ⊢

theorem read_of_writable (fs : FS) (p : Path) (h : writable fs p = true) :
    (if existsSync fs p then readFileSync fs p else some [])
      = some ((readFileSync fs p).getD []) := by
  have hd := not_isDirectory_of_writable fs p h
  unfold isDirectory at hd
  unfold existsSync readFileSync
  cases hn : fs.node p with
  | none => simp
  | some nd =>
    cases nd with
    | file c => simp
    | dir => simp [hn] at hd

theorem withFinalNewline_eq_self_iff (c : Str) :
    withFinalNewline c = c ↔ (c.length > 0 && !jsEndsWith c ['\n']) = false := by
  unfold withFinalNewline
  cases h : (c.length > 0 && !jsEndsWith c ['\n'])
  · simp
  · simp

theorem asLines_eq_nil_iff (ps : List Str) : asLines ps = [] ↔ ps = [] := by
  cases ps with
  | nil => simp [asLines]
  | cons x xs => simp [asLines_cons]

/-- What `smartUpdateGitignore` computes when the ignore-list can be written. -/
theorem smartUpdateGitignore_eq (fs : FS) (t : Path)
    (hw : writable fs (pathJoin t ".gitignore") = true) :
    smartUpdateGitignore fs t
      = some (mergedState fs t, missingPatterns (ignoreContent fs t)) := by
  unfold smartUpdateGitignore
  simp only [read_of_writable fs _ hw]
  have hc : (readFileSync fs (pathJoin t ".gitignore")).getD [] = ignoreContent fs t := rfl
  rw [hc]
  generalize hcd : ignoreContent fs t = c
  cases hn : (c.length > 0 && !jsEndsWith c ['\n'])
  · -- no newline to add
    have hself : withFinalNewline c = c := (withFinalNewline_eq_self_iff c).mpr hn
    have hf := filter_lines_withFinalNewline c
    rw [hself] at hf
    simp only [Bool.false_eq_true, if_false]
    rw [foldlM_appendIfMissing _ _ _ fs [] hw, hf]
    simp only [List.nil_append, mergedState, hcd, hself, true_and]
    unfold appended
    by_cases hm : missingPatterns c = []
    · simp [hm]
    · simp only [hm, if_false]
      rw [hc, hcd]
  · -- the final newline is appended first
    have hwn : withFinalNewline c = c ++ ['\n'] := by
      simp [withFinalNewline, hn]
    have hne : withFinalNewline c ≠ c := by
      rw [hwn]
      intro e
      have := congrArg List.length e
      simp at this
    have hf := filter_lines_withFinalNewline c
    rw [hwn] at hf
    simp only [if_true, appendFileSync_eq fs _ _ hw, hc, hcd]
    rw [foldlM_appendIfMissing _ _ _ _ [] (writable_putFile_same fs _ _ hw), hf]
    simp only [List.nil_append, mergedState, hcd, hne, false_and, if_false]
    unfold appended
    by_cases hm : missingPatterns c = []
    · simp [hm, hwn, asLines]
    · simp only [hm, if_false, readFileSync_putFile_same, Option.getD_some,
        putFile_putFile_same, hwn]

/-! ## Lemmas: lines of the merged content -/

theorem textLines_append_newline (x : Str) :
    textLines (x ++ ['\n']) = jsSplit '\n' x := by
  have h : jsEndsWith (x ++ ['\n']) ['\n'] = true :=
    (jsEndsWith_newline_iff _).mpr ⟨x, rfl⟩
  unfold textLines
  rw [if_pos (Or.inr h), jsSplit_append_sep]
  simp [jsSplit]

theorem asLines_append (xs ys : List Str) :
    asLines (xs ++ ys) = asLines xs ++ asLines ys := by
  simp [asLines]

theorem asLines_shape (ps : List Str) :
    asLines ps = [] ∨ ∃ y, asLines ps = y ++ ['\n'] := by
  rcases List.eq_nil_or_concat ps with h | ⟨init, last, h⟩
  · left
    rw [h]
    rfl
  · right
    refine ⟨asLines init ++ last, ?_⟩
    rw [h, List.concat_eq_append, asLines_append]
    simp [asLines]

theorem withFinalNewline_shape (c : Str) :
    (c = [] ∧ withFinalNewline c = []) ∨
      (∃ x, withFinalNewline c = x ++ ['\n'] ∧ textLines c = jsSplit '\n' x) := by
  by_cases h0 : c = []
  · left
    subst h0
    exact ⟨rfl, rfl⟩
  · right
    have hlen : c.length > 0 := List.length_pos.mpr h0
    by_cases he : jsEndsWith c ['\n'] = true
    · obtain ⟨x, hx⟩ := (jsEndsWith_newline_iff c).mp he
      refine ⟨x, ?_, ?_⟩
      · rw [← hx]
        simp [withFinalNewline, he]
      · rw [hx, textLines_append_newline]
    · refine ⟨c, ?_, ?_⟩
      · simp [withFinalNewline, he, hlen]
      · unfold textLines
        rw [if_neg]
        rintro (h | h)
        · exact h0 h
        · exact he h

/-- The lines of a content stay in place when the final newline and further
complete lines are appended. -/
theorem textLines_merge_extends (c r : Str)
    (hr : r = [] ∨ ∃ y, r = y ++ ['\n']) :
    textLines c <+: textLines (withFinalNewline c ++ r) := by
  rcases withFinalNewline_shape c with ⟨h0, _⟩ | ⟨x, hx, hl⟩
  · subst h0
    have : textLines ([] : Str) = [] := by decide
    rw [this]
    exact List.nil_prefix
  · rw [hx, hl]
    rcases hr with h | ⟨y, hy⟩
    · subst h
      rw [List.append_nil, textLines_append_newline]
    · subst hy
      have e : x ++ ['\n'] ++ (y ++ ['\n']) = (x ++ '\n' :: y) ++ ['\n'] := by simp
      rw [e, textLines_append_newline, jsSplit_append_sep]
      exact List.prefix_append _ _

/-! ## Lemmas: paths of a target -/

theorem pathJoin_dropLast (t : Path) (a : String) : (pathJoin t a).dropLast = t := by
  simp [pathJoin]

theorem pathJoin_getLast (t : Path) (a : String) : (pathJoin t a).getLast? = some a := by
  simp [pathJoin]

theorem pathJoin_ne_self (t : Path) (a : String) : t ≠ pathJoin t a := by
  intro e
  have := congrArg List.length e
  simp [pathJoin] at this

theorem pathJoin_ne (t : Path) (a b : String) (h : a ≠ b) :
    pathJoin t a ≠ pathJoin t b := by
  intro e
  simp [pathJoin] at e
  exact h e

theorem writable_pathJoin (fs : FS) (t : Path) (a : String) :
    writable fs (pathJoin t a)
      = (isDirectory fs t && !isDirectory fs (pathJoin t a)) := by
  unfold writable
  rw [pathJoin_dropLast]

/-! ## Lemmas: `mergedState` and `injectGovernance` -/

theorem node_mergedState_ne (fs : FS) (t q : Path)
    (h : q ≠ pathJoin t ".gitignore") : (mergedState fs t).node q = fs.node q := by
  unfold mergedState
  simp only
  split
  · rfl
  · simp [putFile, h]

theorem isDirectory_mergedState (fs : FS) (t q : Path)
    (hg : isDirectory fs (pathJoin t ".gitignore") = false) :
    isDirectory (mergedState fs t) q = isDirectory fs q := by
  unfold mergedState
  simp only
  split
  · rfl
  · by_cases h : q = pathJoin t ".gitignore"
    · rw [h, isDirectory_putFile_same, hg]
    · exact isDirectory_putFile_ne _ _ _ _ h

theorem mem_entries_putFile (fs : FS) (p : Path) (c : Str) (d : Path) (n : String)
    (h : n ∈ fs.entries d) : n ∈ (putFile fs p c).entries d := by
  simp only [putFile]
  split
  · cases p.getLast? with
    | none => exact h
    | some name =>
      simp only [addName]
      split
      · exact h
      · exact List.mem_append_left _ h
  · exact h

theorem mem_entries_putFile_self (fs : FS) (t : Path) (a : String) (c : Str) :
    a ∈ (putFile fs (pathJoin t a) c).entries t := by
  simp only [putFile, pathJoin_dropLast, pathJoin_getLast, if_true, addName]
  split
  · assumption
  · simp

theorem mem_entries_mergedState (fs : FS) (t d : Path) (n : String)
    (h : n ∈ fs.entries d) : n ∈ (mergedState fs t).entries d := by
  unfold mergedState
  simp only
  split
  · exact h
  · exact mem_entries_putFile _ _ _ _ _ h

theorem ignoreContent_mergedState (fs : FS) (t : Path) :
    ignoreContent (mergedState fs t) t
      = withFinalNewline (ignoreContent fs t)
          ++ asLines (missingPatterns (ignoreContent fs t)) := by
  unfold mergedState
  simp only
  split
  · next h => rw [h.1, h.2]; simp [asLines]
  · simp [ignoreContent, readFileSync_putFile_same]

theorem ignoreContent_rulesWritten (fs : FS) (t : Path) (c : Str) :
    ignoreContent (rulesWritten fs t c) t = ignoreContent fs t := by
  unfold ignoreContent rulesWritten
  rw [readFileSync_putFile_ne _ _ _ _ (pathJoin_ne t _ _ (by decide)),
    readFileSync_putFile_ne _ _ _ _ (pathJoin_ne t _ _ (by decide))]

theorem injectable_rulesWritten (fs : FS) (t : Path) (c : Str)
    (h : injectable fs t) : injectable (rulesWritten fs t c) t := by
  obtain ⟨h1, h2, h3, h4⟩ := h
  unfold rulesWritten
  refine ⟨?_, ?_, ?_, ?_⟩
  · rw [isDirectory_putFile_ne _ _ _ _ (pathJoin_ne_self t _),
      isDirectory_putFile_ne _ _ _ _ (pathJoin_ne_self t _), h1]
  · rw [isDirectory_putFile_ne _ _ _ _ (pathJoin_ne t _ _ (by decide)),
      isDirectory_putFile_same]
  · rw [isDirectory_putFile_same]
  · rw [isDirectory_putFile_ne _ _ _ _ (pathJoin_ne t _ _ (by decide)),
      isDirectory_putFile_ne _ _ _ _ (pathJoin_ne t _ _ (by decide)), h4]

theorem injectable_mergedState (fs : FS) (t : Path)
    (h : injectable fs t) : injectable (mergedState fs t) t := by
  obtain ⟨h1, h2, h3, h4⟩ := h
  refine ⟨?_, ?_, ?_, ?_⟩ <;> rw [isDirectory_mergedState _ _ _ h4] <;> assumption

theorem writable_gitignore_of_injectable (fs : FS) (t : Path) (h : injectable fs t) :
    writable fs (pathJoin t ".gitignore") = true := by
  rw [writable_pathJoin, h.1, h.2.2.2]
  rfl

/-- What `injectGovernance` computes on an injectable target. -/
theorem injectGovernance_eq (r : RuleSource) (fs : FS) (t : Path)
    (h : injectable fs t) :
    injectGovernance r fs t
      = some (mergedState (rulesWritten fs t r.content) t,
          { path := t
            ignoreUpdated := ignoreReport (missingPatterns (ignoreContent fs t)) }) := by
  have hi2 := injectable_rulesWritten fs t r.content h
  obtain ⟨h1, h2, h3, h4⟩ := h
  have w1 : writable fs (pathJoin t ".cursorrules") = true := by
    rw [writable_pathJoin, h1, h2]; rfl
  have w2 : writable (putFile fs (pathJoin t ".cursorrules") r.content)
      (pathJoin t ".clinerules") = true := by
    rw [writable_pathJoin, isDirectory_putFile_ne _ _ _ _ (pathJoin_ne_self t _),
      isDirectory_putFile_ne _ _ _ _ (pathJoin_ne t _ _ (by decide)), h1, h3]
    rfl
  have w3 := writable_gitignore_of_injectable _ t hi2
  unfold injectGovernance
  simp only [writeFileSync, w1, w2, if_true]
  have e := smartUpdateGitignore_eq (rulesWritten fs t r.content) t w3
  unfold rulesWritten at e
  rw [e]
  have e2 := ignoreContent_rulesWritten fs t r.content
  unfold rulesWritten at e2
  simp only [e2, ignoreReport, rulesWritten]

/-! ## Lemmas: the merged content holds every required pattern -/

theorem trimmedLines_pattern (p : Str) (hp : p ∈ essentialIgnores) :
    trimmedLines p = [p] := by
  obtain ⟨_, hnl, ht⟩ := essentialIgnores_facts p hp
  unfold trimmedLines
  rw [jsSplit_no_sep _ _ hnl]
  simp [ht]

theorem mem_trimmedLines_asLines (ps : List Str) (hs : ∀ q ∈ ps, q ∈ essentialIgnores)
    (p : Str) (hp : p ∈ ps) : p ∈ trimmedLines (asLines ps) := by
  induction ps with
  | nil => cases hp
  | cons q qs ih =>
    rw [asLines_cons, trimmedLines_append_sep,
      trimmedLines_pattern q (hs q (List.mem_cons_self _ _))]
    rcases List.mem_cons.mp hp with h | h
    · simp [h]
    · have := ih (fun x hx => hs x (List.mem_cons_of_mem _ hx)) h
      simp [this]

theorem missingPatterns_subset (c : Str) :
    ∀ q ∈ missingPatterns c, q ∈ essentialIgnores := by
  intro q hq
  exact (List.mem_filter.mp hq).1

theorem mem_missingPatterns (c p : Str) :
    p ∈ missingPatterns c ↔ p ∈ essentialIgnores ∧ p ∉ trimmedLines c := by
  unfold missingPatterns
  simp [List.mem_filter]

theorem mem_trimmedLines_append_of_left (w r p : Str) (hp : p ≠ [])
    (hw : w = [] ∨ ∃ x, w = x ++ ['\n']) (h : p ∈ trimmedLines w) :
    p ∈ trimmedLines (w ++ r) := by
  rcases hw with h0 | ⟨x, hx⟩
  · subst h0
    have : trimmedLines ([] : Str) = [[]] := by decide
    rw [this] at h
    simp at h
    exact absurd h hp
  · subst hx
    rw [trimmedLines_append_newline] at h
    have e : x ++ ['\n'] ++ r = x ++ '\n' :: r := by simp
    rw [e, trimmedLines_append_sep]
    simp only [List.mem_append, List.mem_singleton] at h ⊢
    rcases h with h | h
    · exact Or.inl h
    · exact absurd h hp

theorem mem_trimmedLines_append_of_right (w r p : Str)
    (hw : w = [] ∨ ∃ x, w = x ++ ['\n']) (h : p ∈ trimmedLines r) :
    p ∈ trimmedLines (w ++ r) := by
  rcases hw with h0 | ⟨x, hx⟩
  · subst h0
    simpa using h
  · subst hx
    have e : x ++ ['\n'] ++ r = x ++ '\n' :: r := by simp
    rw [e, trimmedLines_append_sep]
    exact List.mem_append_right _ h

theorem withFinalNewline_ends (c : Str) :
    withFinalNewline c = [] ∨ ∃ x, withFinalNewline c = x ++ ['\n'] := by
  rcases withFinalNewline_shape c with ⟨_, h⟩ | ⟨x, hx, _⟩
  · exact Or.inl h
  · exact Or.inr ⟨x, hx⟩

/-- Every required pattern is a trimmed line of the merged content. -/
theorem mem_trimmedLines_mergedContent (c p : Str) (hp : p ∈ essentialIgnores) :
    p ∈ trimmedLines (mergedContent c) := by
  unfold mergedContent
  have hne := (essentialIgnores_facts p hp).1
  by_cases hm : p ∈ trimmedLines c
  · apply mem_trimmedLines_append_of_left _ _ _ hne (withFinalNewline_ends c)
    exact (mem_trimmedLines_withFinalNewline c p hne).mpr hm
  · apply mem_trimmedLines_append_of_right _ _ _ (withFinalNewline_ends c)
    apply mem_trimmedLines_asLines _ (missingPatterns_subset c)
    exact (mem_missingPatterns c p).mpr ⟨hp, hm⟩

theorem mergedContent_ends (c : Str) :
    mergedContent c = [] ∨ ∃ x, mergedContent c = x ++ ['\n'] := by
  unfold mergedContent
  rcases asLines_shape (missingPatterns c) with h | ⟨y, hy⟩
  · rw [h, List.append_nil]
    exact withFinalNewline_ends c
  · right
    exact ⟨withFinalNewline c ++ y, by rw [hy, List.append_assoc]⟩

theorem withFinalNewline_of_ends (c : Str) (h : c = [] ∨ ∃ x, c = x ++ ['\n']) :
    withFinalNewline c = c := by
  rw [withFinalNewline_eq_self_iff]
  rcases h with h | h
  · subst h
    rfl
  · have := (jsEndsWith_newline_iff c).mpr h
    simp [this]

theorem missingPatterns_mergedContent (c : Str) :
    missingPatterns (mergedContent c) = [] := by
  rw [List.eq_nil_iff_forall_not_mem]
  intro p hp
  have := (mem_missingPatterns _ p).mp hp
  exact this.2 (mem_trimmedLines_mergedContent c p this.1)

/-- A second merge changes nothing. -/
theorem mergedState_mergedState (fs : FS) (t : Path) :
    mergedState (mergedState fs t) t = mergedState fs t := by
  have hc := ignoreContent_mergedState fs t
  have hc2 : ignoreContent (mergedState fs t) t = mergedContent (ignoreContent fs t) := hc
  generalize mergedState fs t = fs1 at hc2 ⊢
  unfold mergedState
  simp only [hc2]
  rw [if_pos]
  exact ⟨withFinalNewline_of_ends _ (mergedContent_ends _), missingPatterns_mergedContent _⟩

/-! ## Lemmas: one injection and sequences of injections -/

theorem mergedContent_extends (c : Str) : c <+: mergedContent c :=
  (withFinalNewline_extends c).trans (List.prefix_append _ _)

theorem textLines_mergedContent_extends (c : Str) :
    textLines c <+: textLines (mergedContent c) :=
  textLines_merge_extends c _ (asLines_shape _)

theorem ignoreContent_injected (fs : FS) (t : Path) (c : Str) :
    ignoreContent (mergedState (rulesWritten fs t c) t) t
      = mergedContent (ignoreContent fs t) := by
  rw [ignoreContent_mergedState, ignoreContent_rulesWritten]
  rfl

theorem injectSeq_grows (t : Path) (rs : List RuleSource) :
    ∀ fs : FS, injectable fs t → ∃ fs1, injectSeq t rs fs = some fs1 ∧
      injectable fs1 t ∧ ignoreContent fs t <+: ignoreContent fs1 t ∧
      textLines (ignoreContent fs t) <+: textLines (ignoreContent fs1 t) := by
  induction rs with
  | nil =>
    intro fs h
    exact ⟨fs, rfl, h, List.prefix_refl _, List.prefix_refl _⟩
  | cons r rs ih =>
    intro fs h
    have hi := injectable_mergedState _ t (injectable_rulesWritten fs t r.content h)
    obtain ⟨fs1, e1, i1, p1, l1⟩ := ih _ hi
    refine ⟨fs1, ?_, i1, ?_, ?_⟩
    · simp only [injectSeq, injectGovernance_eq r fs t h]
      exact e1
    · rw [ignoreContent_injected] at p1
      exact (mergedContent_extends _).trans p1
    · rw [ignoreContent_injected] at l1
      exact (textLines_mergedContent_extends _).trans l1

theorem injectSeq_append (t : Path) (rs1 rs2 : List RuleSource) :
    ∀ fs : FS, injectSeq t (rs1 ++ rs2) fs
      = (injectSeq t rs1 fs).bind (injectSeq t rs2) := by
  induction rs1 with
  | nil => intro fs; rfl
  | cons r rs ih =>
    intro fs
    simp only [List.cons_append, injectSeq]
    cases injectGovernance r fs t with
    | none => rfl
    | some x => exact ih x.1

/-! ## Claims -/

/-- C1. Ignore-list append-only: when the ignore-list of `t` can be written
(the directory exists), `smartUpdateGitignore` returns, and the prior content
(empty when the file is absent) is a prefix of the content afterwards, so the
prior lines are the first lines afterwards, in place and in order; and along
any sequence of injections into an injectable target the content after the
first `rs1` injections is a prefix of the content after any further ones. -/
theorem smartUpdateGitignore_append_only (fs : FS) (t : Path)
    (hw : writable fs (pathJoin t ".gitignore") = true) :
    (∃ fs1 added, smartUpdateGitignore fs t = some (fs1, added) ∧
        ignoreContent fs t <+: ignoreContent fs1 t ∧
        textLines (ignoreContent fs t) <+: textLines (ignoreContent fs1 t)) ∧
    (injectable fs t → ∀ rs1 rs2 : List RuleSource, ∃ fs1 fs2,
        injectSeq t rs1 fs = some fs1 ∧ injectSeq t (rs1 ++ rs2) fs = some fs2 ∧
        ignoreContent fs1 t <+: ignoreContent fs2 t ∧
        textLines (ignoreContent fs1 t) <+: textLines (ignoreContent fs2 t)) := by
  constructor
  · refine ⟨_, _, smartUpdateGitignore_eq fs t hw, ?_, ?_⟩
    · rw [ignoreContent_mergedState]
      exact mergedContent_extends _
    · rw [ignoreContent_mergedState]
      exact textLines_mergedContent_extends _
  · intro hi rs1 rs2
    obtain ⟨fs1, e1, i1, _, _⟩ := injectSeq_grows t rs1 fs hi
    obtain ⟨fs2, e2, _, p2, l2⟩ := injectSeq_grows t rs2 fs1 i1
    refine ⟨fs1, fs2, e1, ?_, p2, l2⟩
    rw [injectSeq_append, e1]
    exact e2

theorem smartUpdateGitignore_append_only_witness :
    writable exFS (pathJoin exProj ".gitignore") = true ∧
    injectable exFS exProj ∧
    ∃ fs1 added, smartUpdateGitignore exFS exProj = some (fs1, added) ∧
      ignoreContent exFS exProj <+: ignoreContent fs1 exProj ∧
      textLines (ignoreContent exFS exProj) <+: textLines (ignoreContent fs1 exProj) :=
  ⟨by decide, by decide,
    (smartUpdateGitignore_append_only exFS exProj (by decide)).1⟩

theorem readFileSync_mergedState (fs : FS) (t : Path) :
    readFileSync (mergedState fs t) (pathJoin t ".gitignore")
      = some (mergedContent (ignoreContent fs t)) := by
  unfold mergedState
  simp only
  split
  · next h =>
    have hne : ignoreContent fs t ≠ [] := by
      intro e
      rw [e, missingPatterns_nil] at h
      exact absurd h.2 (by decide)
    unfold mergedContent
    rw [h.1, h.2]
    unfold ignoreContent at hne ⊢
    cases hr : readFileSync fs (pathJoin t ".gitignore") with
    | none => simp [hr] at hne
    | some c => simp [asLines]
  · rw [readFileSync_putFile_same]
    rfl

/-- C2. When the ignore-list of `t` can be written, `smartUpdateGitignore`
returns exactly the required patterns that equal no trimmed line of the prior
content `c`, in declaration order, and leaves the file with `c` (plus one
newline when `c` is non-empty and does not end in one) followed by exactly
those patterns, one per line; a pattern that is a trimmed line of `c` is not
returned. -/
theorem smartUpdateGitignore_appends_missing (fs : FS) (t : Path)
    (hw : writable fs (pathJoin t ".gitignore") = true) :
    ∃ fs1 added, smartUpdateGitignore fs t = some (fs1, added) ∧
      added = essentialIgnores.filter
        (fun p => decide (p ∉ trimmedLines (ignoreContent fs t))) ∧
      readFileSync fs1 (pathJoin t ".gitignore")
        = some (withFinalNewline (ignoreContent fs t) ++ asLines added) ∧
      (∀ p, p ∈ added ↔ p ∈ essentialIgnores ∧ p ∉ trimmedLines (ignoreContent fs t)) ∧
      added.Sublist essentialIgnores ∧ added.Nodup ∧
      (∀ q, q ≠ pathJoin t ".gitignore" → fs1.node q = fs.node q) := by
  refine ⟨_, _, smartUpdateGitignore_eq fs t hw, ?_, ?_, ?_, ?_, ?_, ?_⟩
  · unfold missingPatterns
    apply List.filter_congr
    intro p _
    simp
  · exact readFileSync_mergedState fs t
  · exact mem_missingPatterns _
  · exact List.filter_sublist _
  · exact essentialIgnores_nodup.sublist (List.filter_sublist _)
  · intro q hq
    exact node_mergedState_ne fs t q hq

theorem smartUpdateGitignore_appends_missing_witness :
    writable exFS (pathJoin exProj ".gitignore") = true ∧
    ∃ fs1 added, smartUpdateGitignore exFS exProj = some (fs1, added) ∧
      added = essentialIgnores.filter
        (fun p => decide (p ∉ trimmedLines (ignoreContent exFS exProj))) ∧
      readFileSync fs1 (pathJoin exProj ".gitignore")
        = some (withFinalNewline (ignoreContent exFS exProj) ++ asLines added) :=
  ⟨by decide,
    (smartUpdateGitignore_appends_missing exFS exProj (by decide)).imp
      (fun _ h => h.imp (fun _ h2 => ⟨h2.1, h2.2.1, h2.2.2.1⟩))⟩

/-- C3. After one injection into an injectable target every required pattern
is a trimmed line of the target's ignore-list; and when the target had no
ignore-list, the file afterwards is exactly the required patterns, one per
line, each once. -/
theorem injectGovernance_required_patterns (r : RuleSource) (fs : FS) (t : Path)
    (h : injectable fs t) :
    ∃ fs1 res, injectGovernance r fs t = some (fs1, res) ∧
      (∀ p ∈ essentialIgnores, p ∈ trimmedLines (ignoreContent fs1 t)) ∧
      (existsSync fs (pathJoin t ".gitignore") = false →
        readFileSync fs1 (pathJoin t ".gitignore") = some (asLines essentialIgnores) ∧
        textLines (ignoreContent fs1 t) = essentialIgnores ∧
        (textLines (ignoreContent fs1 t)).Nodup) := by
  refine ⟨_, _, injectGovernance_eq r fs t h, ?_, ?_⟩
  · intro p hp
    rw [ignoreContent_injected]
    exact mem_trimmedLines_mergedContent _ p hp
  · intro hex
    have hc : ignoreContent fs t = [] := by
      unfold existsSync at hex
      unfold ignoreContent readFileSync
      cases hn : fs.node (pathJoin t ".gitignore") with
      | none => rfl
      | some nd => simp [hn] at hex
    have hm : mergedContent (ignoreContent fs t) = asLines essentialIgnores := by
      rw [hc]
      decide
    have hl : textLines (asLines essentialIgnores) = essentialIgnores := by decide
    refine ⟨?_, ?_, ?_⟩
    · rw [readFileSync_mergedState, ignoreContent_rulesWritten, hm]
    · rw [ignoreContent_injected, hm, hl]
    · rw [ignoreContent_injected, hm, hl]
      exact essentialIgnores_nodup

theorem injectGovernance_required_patterns_witness :
    injectable exFSBare exProj ∧
    existsSync exFSBare (pathJoin exProj ".gitignore") = false ∧
    ∃ fs1 res, injectGovernance exRules exFSBare exProj = some (fs1, res) ∧
      readFileSync fs1 (pathJoin exProj ".gitignore") = some (asLines essentialIgnores) :=
  ⟨by decide, by decide,
    (injectGovernance_required_patterns exRules exFSBare exProj (by decide)).imp
      (fun _ h => h.imp (fun _ h2 => ⟨h2.1, (h2.2.2 (by decide)).1⟩))⟩

/-! ## Lemmas: a second injection -/

theorem node_injected_cursorrules (fs : FS) (t : Path) (c : Str) :
    (mergedState (rulesWritten fs t c) t).node (pathJoin t ".cursorrules")
      = some (.file c) := by
  rw [node_mergedState_ne _ _ _ (pathJoin_ne t _ _ (by decide))]
  unfold rulesWritten
  rw [node_putFile, if_neg (pathJoin_ne t _ _ (by decide)), node_putFile, if_pos rfl]

theorem node_injected_clinerules (fs : FS) (t : Path) (c : Str) :
    (mergedState (rulesWritten fs t c) t).node (pathJoin t ".clinerules")
      = some (.file c) := by
  rw [node_mergedState_ne _ _ _ (pathJoin_ne t _ _ (by decide))]
  unfold rulesWritten
  rw [node_putFile, if_pos rfl]

theorem rulesWritten_injected (fs : FS) (t : Path) (c : Str) :
    rulesWritten (mergedState (rulesWritten fs t c) t) t c
      = mergedState (rulesWritten fs t c) t := by
  have e1 : putFile (mergedState (rulesWritten fs t c) t) (pathJoin t ".cursorrules") c
      = mergedState (rulesWritten fs t c) t := by
    apply putFile_eq_self _ _ _ ".cursorrules" (node_injected_cursorrules fs t c)
      (pathJoin_getLast _ _)
    rw [pathJoin_dropLast]
    apply mem_entries_mergedState
    unfold rulesWritten
    apply mem_entries_putFile
    exact mem_entries_putFile_self _ _ _ _
  have e2 : putFile (mergedState (rulesWritten fs t c) t) (pathJoin t ".clinerules") c
      = mergedState (rulesWritten fs t c) t := by
    apply putFile_eq_self _ _ _ ".clinerules" (node_injected_clinerules fs t c)
      (pathJoin_getLast _ _)
    rw [pathJoin_dropLast]
    apply mem_entries_mergedState
    unfold rulesWritten
    exact mem_entries_putFile_self _ _ _ _
  show putFile (putFile _ _ c) _ c = _
  rw [e1, e2]

theorem readFileSync_of_node (fs : FS) (p : Path) (c : Str)
    (h : fs.node p = some (.file c)) : readFileSync fs p = some c := by
  simp [readFileSync, h]

/-- C4. Injection is idempotent: on an injectable target, a run of
`injectGovernance` under the rules `r` returns a state in which both
rule-surface files hold exactly `r.content`, and a second run under the same
rules returns that same state, reports that no pattern was appended, and its
`smartUpdateGitignore` step returns the empty list and leaves the ignore-list
as it was. -/
theorem injectGovernance_idempotent (r : RuleSource) (fs : FS) (t : Path)
    (h : injectable fs t) :
    ∃ fs1 res, injectGovernance r fs t = some (fs1, res) ∧
      readFileSync fs1 (pathJoin t ".cursorrules") = some r.content ∧
      readFileSync fs1 (pathJoin t ".clinerules") = some r.content ∧
      injectGovernance r fs1 t
        = some (fs1, { path := t, ignoreUpdated := "無須更新".toList }) ∧
      smartUpdateGitignore fs1 t = some (fs1, []) := by
  have hi := injectable_mergedState _ t (injectable_rulesWritten fs t r.content h)
  have hm : missingPatterns (ignoreContent (mergedState (rulesWritten fs t r.content) t) t)
      = [] := by
    rw [ignoreContent_injected]
    exact missingPatterns_mergedContent _
  refine ⟨_, _, injectGovernance_eq r fs t h, ?_, ?_, ?_, ?_⟩
  · exact readFileSync_of_node _ _ _ (node_injected_cursorrules fs t r.content)
  · exact readFileSync_of_node _ _ _ (node_injected_clinerules fs t r.content)
  · rw [injectGovernance_eq r _ t hi, rulesWritten_injected, mergedState_mergedState, hm]
    rfl
  · rw [smartUpdateGitignore_eq _ t (writable_gitignore_of_injectable _ t hi),
      mergedState_mergedState, hm]

theorem injectGovernance_idempotent_witness :
    injectable exFS exProj ∧
    ∃ fs1 res, injectGovernance exRules exFS exProj = some (fs1, res) ∧
      readFileSync fs1 (pathJoin exProj ".cursorrules") = some exRules.content ∧
      readFileSync fs1 (pathJoin exProj ".clinerules") = some exRules.content ∧
      injectGovernance exRules fs1 exProj
        = some (fs1, { path := exProj, ignoreUpdated := "無須更新".toList }) ∧
      smartUpdateGitignore fs1 exProj = some (fs1, []) :=
  ⟨by decide, injectGovernance_idempotent exRules exFS exProj (by decide)⟩

/-! ## Lemmas: `loadTemplates` -/

theorem loadExternals_spec (fs : FS) (selfDir : Path) (names : List String)
    (h : ∀ f ∈ names, ∃ c, readFileSync fs (pathJoin (TEMPLATE_DIR selfDir) f) = some c) :
    ∃ cat, loadExternals fs selfDir names = some cat ∧
      cat.length = names.length ∧
      cat.map (fun e => e.id)
        = names.map (fun f => jsReplace ".md".toList [] f.toList) ∧
      cat.map (fun e => some e.content)
        = names.map (fun f => readFileSync fs (pathJoin (TEMPLATE_DIR selfDir) f)) := by
  induction names with
  | nil => exact ⟨[], rfl, rfl, rfl, rfl⟩
  | cons f rest ih =>
    obtain ⟨c, hc⟩ := h f (List.mem_cons_self _ _)
    obtain ⟨cat, e, hl, hid, hct⟩ := ih (fun g hg => h g (List.mem_cons_of_mem _ hg))
    have ht : ∃ t, loadExternal fs selfDir f = some t ∧
        t.id = jsReplace ".md".toList [] f.toList ∧ t.content = c := by
      unfold loadExternal
      rw [hc]
      exact ⟨_, rfl, rfl, rfl⟩
    obtain ⟨t, e1, hti, htc⟩ := ht
    refine ⟨t :: cat, ?_, ?_, ?_, ?_⟩
    · simp only [loadExternals, e1, e]
    · simp [hl]
    · simp [hid, hti]
    · simp [hct, hc, htc]

theorem loadExternals_external (fs : FS) (selfDir : Path) (names : List String) :
    ∀ cat, loadExternals fs selfDir names = some cat →
      ∀ e ∈ cat, e.source = TemplateSource.external := by
  induction names with
  | nil =>
    intro cat h e he
    simp only [loadExternals, Option.some.injEq] at h
    subst h
    cases he
  | cons f rest ih =>
    intro cat h e he
    unfold loadExternals at h
    cases h1 : loadExternal fs selfDir f with
    | none => simp [h1] at h
    | some t =>
      cases h2 : loadExternals fs selfDir rest with
      | none => simp [h1, h2] at h
      | some ts =>
        simp only [h1, h2, Option.some.injEq] at h
        subst h
        rcases List.mem_cons.mp he with rfl | hm
        · unfold loadExternal at h1
          cases h3 : readFileSync fs (pathJoin (TEMPLATE_DIR selfDir) f) with
          | none => simp [h3] at h1
          | some c =>
            simp only [h3, Option.some.injEq] at h1
            rw [← h1]
        · exact ih ts h2 e hm

theorem builtin_map_eq :
    BUILTIN_TEMPLATES.map (fun t =>
        ({ id := t.id, name := t.name, content := t.content, source := .builtin } : Template))
      = builtinCatalog := rfl

/-- C5. Catalog exclusivity of `loadTemplates`: when the template directory is
absent, or is a directory with no markdown file, the catalog is exactly the
three built-in entries `hybrid`, `architect`, `cost_saver`, in that order and
all of source `builtin`; when it is a directory with `n ≥ 1` markdown files
(each readable as a file), the catalog has exactly `n` entries, one per file
in enumeration order, all of source `external`; and a returned catalog is never
a mix of the two sources. -/
theorem loadTemplates_exclusive (fs : FS) (selfDir : Path) :
    ((existsSync fs (TEMPLATE_DIR selfDir) = false ∨
        (isDirectory fs (TEMPLATE_DIR selfDir) = true ∧ markdownFiles fs selfDir = [])) →
      loadTemplates fs selfDir = some builtinCatalog) ∧
    (builtinCatalog.map (fun e => e.id)
        = ["hybrid".toList, "architect".toList, "cost_saver".toList] ∧
      ∀ e ∈ builtinCatalog, e.source = TemplateSource.builtin) ∧
    (isDirectory fs (TEMPLATE_DIR selfDir) = true →
      markdownFiles fs selfDir ≠ [] →
      (∀ f ∈ markdownFiles fs selfDir,
        ∃ c, readFileSync fs (pathJoin (TEMPLATE_DIR selfDir) f) = some c) →
      ∃ cat, loadTemplates fs selfDir = some cat ∧
        cat.length = (markdownFiles fs selfDir).length ∧
        (∀ e ∈ cat, e.source = TemplateSource.external) ∧
        cat.map (fun e => e.id)
          = (markdownFiles fs selfDir).map (fun f => jsReplace ".md".toList [] f.toList) ∧
        cat.map (fun e => some e.content)
          = (markdownFiles fs selfDir).map
              (fun f => readFileSync fs (pathJoin (TEMPLATE_DIR selfDir) f))) ∧
    (∀ cat, loadTemplates fs selfDir = some cat →
      (∀ e ∈ cat, e.source = TemplateSource.external) ∨
      (∀ e ∈ cat, e.source = TemplateSource.builtin)) := by
  have hb : ∀ e ∈ builtinCatalog, e.source = TemplateSource.builtin := by
    intro e he
    simp only [builtinCatalog, List.mem_cons, List.mem_singleton, List.not_mem_nil,
      or_false] at he
    rcases he with rfl | rfl | rfl <;> rfl
  refine ⟨?_, ⟨rfl, hb⟩, ?_, ?_⟩
  · rintro (h | ⟨hd, hm⟩)
    · simp [loadTemplates, h, builtin_map_eq]
    · have hex : existsSync fs (TEMPLATE_DIR selfDir) = true := by
        unfold isDirectory at hd
        unfold existsSync
        cases hn : fs.node (TEMPLATE_DIR selfDir) with
        | none => simp [hn] at hd
        | some nd => rfl
      unfold markdownFiles at hm
      simp only [loadTemplates, hex, readdirSync, hd, if_true, hm, loadExternals]
      rfl
  · intro hd hne hr
    have hex : existsSync fs (TEMPLATE_DIR selfDir) = true := by
      unfold isDirectory at hd
      unfold existsSync
      cases hn : fs.node (TEMPLATE_DIR selfDir) with
      | none => simp [hn] at hd
      | some nd => rfl
    obtain ⟨cat, e, hl, hid, hct⟩ := loadExternals_spec fs selfDir _ hr
    have hpos : cat.length > 0 := by
      rw [hl]
      exact List.length_pos.mpr hne
    refine ⟨cat, ?_, hl, loadExternals_external fs selfDir _ cat e, hid, hct⟩
    unfold markdownFiles at e
    simp only [loadTemplates, hex, readdirSync, hd, if_true, e, hpos]
  · intro cat h
    unfold loadTemplates at h
    simp only at h
    split at h
    · cases h
    · next ext hext =>
      split at h
      · left
        simp only [Option.some.injEq] at h
        subst h
        split at hext
        · split at hext
          · cases hext
          · exact loadExternals_external fs selfDir _ _ hext
        · simp only [Option.some.injEq] at hext
          subst hext
          intro e he
          cases he
      · right
        simp only [Option.some.injEq] at h
        subst h
        rw [builtin_map_eq]
        exact hb

theorem jsReplace_marker (rest : Str) :
    jsReplace "# ".toList [] ("# ".toList ++ rest) = rest := by
  show jsReplace ['#', ' '] [] ('#' :: ' ' :: rest) = rest
  simp [jsReplace, List.isPrefixOf]

theorem find_first_heading (pre post : List Str) (l : Str)
    (hpre : ∀ x ∈ pre, jsStartsWith x "# ".toList = false)
    (hl : jsStartsWith l "# ".toList = true) :
    (pre ++ l :: post).find? (fun x => jsStartsWith x "# ".toList) = some l := by
  have h1 : pre.find? (fun x => jsStartsWith x "# ".toList) = none := by
    rw [List.find?_eq_none]
    intro x hx
    show ¬ jsStartsWith x "# ".toList = true
    rw [hpre x hx]
    exact Bool.false_ne_true
  rw [List.find?_append, h1,
    List.find?_cons_of_pos (p := fun x => jsStartsWith x "# ".toList) _ hl]
  rfl

/-- C6, as amended. For every external template file `f` that can be read,
the entry `loadTemplates` pushes has source `external`, the file's content,
and as its `name` the folder mark `📂 ` followed by: the first line of the
content that begins with `# `, with that marker removed and whitespace
trimmed; or the entry's id when no line begins with `# `. The single file
`foo.md` whose first heading line is `# Foo Rules` yields the one-entry catalog
with id `foo`, name `📂 Foo Rules` and source `external`. -/
theorem loadExternal_name (fs : FS) (selfDir : Path) (f : String) (c : Str)
    (hc : readFileSync fs (pathJoin (TEMPLATE_DIR selfDir) f) = some c) :
    (∃ t, loadExternal fs selfDir f = some t ∧
      t.source = TemplateSource.external ∧ t.content = c ∧
      (∀ pre post rest, jsSplit '\n' c = pre ++ ("# ".toList ++ rest) :: post →
        (∀ x ∈ pre, jsStartsWith x "# ".toList = false) →
        t.name = "📂 ".toList ++ jsTrim rest) ∧
      ((∀ x ∈ jsSplit '\n' c, jsStartsWith x "# ".toList = false) →
        t.name = "📂 ".toList ++ t.id)) ∧
    loadTemplates exFSFoo exSelf
      = some [{ id := "foo".toList, name := "📂 Foo Rules".toList,
                content := "intro\n# Foo Rules\nbody\n".toList,
                source := TemplateSource.external }] := by
  constructor
  · simp only [loadExternal, hc]
    refine ⟨_, rfl, rfl, rfl, ?_, ?_⟩
    · intro pre post rest hs hpre
      have hl : jsStartsWith ("# ".toList ++ rest) "# ".toList = true := by
        show List.isPrefixOf ['#', ' '] ('#' :: ' ' :: rest) = true
        simp [List.isPrefixOf]
      have he : ("# ".toList ++ rest).isEmpty = false := rfl
      simp only [hs, find_first_heading pre post _ hpre hl, he, jsReplace_marker]
      rfl
    · intro hno
      have h1 : (jsSplit '\n' c).find? (fun x => jsStartsWith x "# ".toList) = none := by
        rw [List.find?_eq_none]
        intro x hx
        show ¬ jsStartsWith x "# ".toList = true
        rw [hno x hx]
        exact Bool.false_ne_true
      simp only [h1]
  · decide

theorem loadExternal_name_witness :
    readFileSync exFSFoo (pathJoin (TEMPLATE_DIR exSelf) "foo.md")
      = some "intro\n# Foo Rules\nbody\n".toList ∧
    ∃ t, loadExternal exFSFoo exSelf "foo.md" = some t ∧
      t.source = TemplateSource.external ∧
      t.content = "intro\n# Foo Rules\nbody\n".toList :=
  ⟨by decide,
    (loadExternal_name exFSFoo exSelf "foo.md" _ (by decide)).1.imp
      (fun _ h => ⟨h.1, h.2.1, h.2.2.1⟩)⟩

/-- C6, counterexample. For the single file `foo.md` whose first heading line
is `# Foo Rules`, the catalog entry's name is not `Foo Rules`: the catalog is
not the one the claim gives. -/
theorem loadTemplates_foo_name_counterexample :
    loadTemplates exFSFoo exSelf
      ≠ some [{ id := "foo".toList, name := "Foo Rules".toList,
                content := "intro\n# Foo Rules\nbody\n".toList,
                source := TemplateSource.external }] := by
  decide

/-- C7. The id `loadTemplates` gives the markdown file `x.mdy.md` is `xy.md`,
not the name with its extension stripped (`x.mdy`), and it is also the id of
the distinct markdown file `xy.md.md`: `replace` removes the first `.md` of
the name, not the trailing one. -/
theorem loadTemplates_id_first_occurrence :
    (loadTemplates exFSTwo exSelf).map (List.map (fun e => e.id))
      = some ["xy.md".toList, "xy.md".toList] ∧
    markdownFiles exFSTwo exSelf = ["x.mdy.md", "xy.md.md"] ∧
    jsReplace ".md".toList [] "x.mdy.md".toList ≠ "x.mdy".toList := by
  decide

/-! ## Lemmas: `findGasProjects` -/

theorem existsSync_of_isDirectory (fs : FS) (p : Path) (h : isDirectory fs p = true) :
    existsSync fs p = true := by
  unfold isDirectory at h
  unfold existsSync
  cases hn : fs.node p with
  | none => simp [hn] at h
  | some nd => rfl

theorem findGasProjects_eq (fs : FS) (selfDir baseDir : Path)
    (hd : isDirectory fs baseDir = true) :
    findGasProjects fs selfDir baseDir
      = some (((fs.entries baseDir).filter (fun n =>
            isDirectory fs (pathJoin baseDir n) &&
            decide (pathJoin baseDir n ≠ selfDir) &&
            existsSync fs (pathJoin (pathJoin baseDir n) ".clasp.json"))).map
          (fun n => pathJoin baseDir n)) := by
  unfold findGasProjects
  rw [existsSync_of_isDirectory fs baseDir hd]
  simp only [Bool.not_true, Bool.false_eq_true, if_false, readdirSync, hd, if_true]
  rw [List.filter_map, List.filter_map, List.filter_filter, List.filter_filter]
  congr 2
  apply List.filter_congr
  intro n _
  simp only [Function.comp]
  cases isDirectory fs (pathJoin baseDir n) <;>
    cases existsSync fs (pathJoin (pathJoin baseDir n) ".clasp.json") <;> simp

/-- C8. The function `findGasProjects` returns the empty list when the base
does not exist; when the base is a directory it returns, in enumeration order,
exactly the paths `base/n` of the enumerated names `n` that are directories,
differ from the tool's own directory and contain an entry `.clasp.json`. So the
tool's own directory is never returned, every returned path is an immediate
subdirectory of the base holding the marker, and plain files and nested
directories are never returned. On the example base with three subdirectories
of which two hold a marker, exactly those two are returned, in order. -/
theorem findGasProjects_spec (fs : FS) (selfDir baseDir : Path) :
    (existsSync fs baseDir = false → findGasProjects fs selfDir baseDir = some []) ∧
    (isDirectory fs baseDir = true →
      findGasProjects fs selfDir baseDir
        = some (((fs.entries baseDir).filter (fun n =>
              isDirectory fs (pathJoin baseDir n) &&
              decide (pathJoin baseDir n ≠ selfDir) &&
              existsSync fs (pathJoin (pathJoin baseDir n) ".clasp.json"))).map
            (fun n => pathJoin baseDir n))) ∧
    (∀ ps, findGasProjects fs selfDir baseDir = some ps →
      selfDir ∉ ps ∧
      ∀ p ∈ ps, (∃ n ∈ fs.entries baseDir, p = pathJoin baseDir n) ∧
        p.length = baseDir.length + 1 ∧
        isDirectory fs p = true ∧
        existsSync fs (pathJoin p ".clasp.json") = true) ∧
    (findGasProjects exFSScan exSelf ["scan"] = some [["scan", "a"], ["scan", "c"]] ∧
      findGasProjects exFSScan ["scan", "a"] ["scan"] = some [["scan", "c"]] ∧
      findGasProjects exFSScan exSelf ["nowhere"] = some []) := by
  refine ⟨?_, findGasProjects_eq fs selfDir baseDir, ?_, by decide⟩
  · intro h
    simp [findGasProjects, h]
  · intro ps hps
    by_cases hex : existsSync fs baseDir = true
    · by_cases hd : isDirectory fs baseDir = true
      · rw [findGasProjects_eq fs selfDir baseDir hd] at hps
        simp only [Option.some.injEq] at hps
        subst hps
        have key : ∀ p, p ∈ ((fs.entries baseDir).filter (fun n =>
              isDirectory fs (pathJoin baseDir n) &&
              decide (pathJoin baseDir n ≠ selfDir) &&
              existsSync fs (pathJoin (pathJoin baseDir n) ".clasp.json"))).map
            (fun n => pathJoin baseDir n) →
            ∃ n ∈ fs.entries baseDir, p = pathJoin baseDir n ∧
              isDirectory fs p = true ∧ p ≠ selfDir ∧
              existsSync fs (pathJoin p ".clasp.json") = true := by
          intro p hp
          obtain ⟨n, hn, rfl⟩ := List.mem_map.mp hp
          obtain ⟨hn1, hn2⟩ := List.mem_filter.mp hn
          simp only [Bool.and_eq_true, decide_eq_true_eq] at hn2
          exact ⟨n, hn1, rfl, hn2.1.1, hn2.1.2, hn2.2⟩
        constructor
        · intro hs
          obtain ⟨_, _, _, _, hne, _⟩ := key selfDir hs
          exact hne rfl
        · intro p hp
          obtain ⟨n, hn, rfl, h1, _, h3⟩ := key p hp
          exact ⟨⟨n, hn, rfl⟩, by simp [pathJoin], h1, h3⟩
      · simp [findGasProjects, hex, readdirSync, hd] at hps
    · have hex2 : existsSync fs baseDir = false := by simpa using hex
      simp only [findGasProjects, hex2, Bool.not_false, if_true, Option.some.injEq] at hps
      subst hps
      exact ⟨by simp, fun p hp => by cases hp⟩

/-! ## Lemmas: the audit report -/

theorem reportFrom_flag (fs : FS) (parse : Str → Option (Option Str)) (ps : List Path) :
    ∀ i, ∀ e ∈ reportFrom fs parse i ps,
      e.isProtected = existsSync fs (pathJoin e.path ".clinerules") := by
  induction ps with
  | nil =>
    intro i e he
    cases he
  | cons p ps ih =>
    intro i e he
    unfold reportFrom at he
    rcases List.mem_cons.mp he with rfl | h
    · rfl
    · exact ih _ e h

theorem reportFrom_paths (fs : FS) (parse : Str → Option (Option Str)) (ps : List Path) :
    ∀ i, (reportFrom fs parse i ps).map (fun e => e.path) = ps := by
  induction ps with
  | nil => intro i; rfl
  | cons p ps ih =>
    intro i
    simp only [reportFrom, List.map_cons, ih]
    rfl

/-- C9, as amended. In the report `auditDashboard` builds, the entries are the
discovered projects in order, and an entry's `protected` flag is true if and
only if an entry named `.clinerules` exists in the project directory: the flag
depends neither on `.cursorrules` nor on any file's content. -/
theorem auditReport_protected_iff (fs : FS) (selfDir : Path)
    (parse : Str → Option (Option Str)) (scanPath : Path)
    (report : List ReportEntry)
    (h : auditReport fs selfDir parse scanPath = some report) :
    findGasProjects fs selfDir scanPath = some (report.map (fun e => e.path)) ∧
    ∀ e ∈ report,
      (e.isProtected = true ↔
        (fs.node (pathJoin e.path ".clinerules")).isSome = true) := by
  unfold auditReport at h
  cases hf : findGasProjects fs selfDir scanPath with
  | none => simp [hf] at h
  | some projects =>
    simp only [hf, Option.some.injEq] at h
    subst h
    refine ⟨by rw [reportFrom_paths], ?_⟩
    intro e he
    rw [reportFrom_flag fs parse projects 0 e he]
    rfl

theorem auditReport_protected_iff_witness :
    auditReport exFSScan exSelf exParse ["scan"]
      = some [ { index := 1, path := ["scan", "a"], name := "a",
                 id := "Unknown".toList, isProtected := false },
               { index := 2, path := ["scan", "c"], name := "c",
                 id := "Unknown".toList, isProtected := true } ] ∧
    ∀ e ∈ [ ({ index := 1, path := ["scan", "a"], name := "a",
               id := "Unknown".toList, isProtected := false } : ReportEntry),
            { index := 2, path := ["scan", "c"], name := "c",
              id := "Unknown".toList, isProtected := true } ],
      (e.isProtected = true ↔
        (exFSScan.node (pathJoin e.path ".clinerules")).isSome = true) :=
  ⟨by decide,
    (auditReport_protected_iff exFSScan exSelf exParse ["scan"] _ (by decide)).2⟩

/-- C9, counterexample. The project `/scan/a` holds the rule-surface file
`.cursorrules` (and no `.clinerules`), and the audit report gives it
`protected = false`. -/
theorem auditReport_cursorrules_only_counterexample :
    existsSync exFSScan ["scan", "a", ".cursorrules"] = true ∧
    existsSync exFSScan ["scan", "a", ".clinerules"] = false ∧
    (auditReport exFSScan exSelf exParse ["scan"]).map
        (List.map (fun e => (e.path, e.isProtected)))
      = some [(["scan", "a"], false), (["scan", "c"], true)] := by
  decide

/-! ## Lemmas: the `fix` command -/

theorem pathJoin_inj (x y : Path) (a b : String) (h : pathJoin x a = pathJoin y b) :
    x = y ∧ a = b := by
  unfold pathJoin at h
  obtain ⟨h1, h2⟩ := List.append_inj' h rfl
  exact ⟨h1, by simpa using h2⟩

theorem smartUpdateGitignore_dir (fs : FS) (t : Path)
    (h : isDirectory fs (pathJoin t ".gitignore") = true) :
    smartUpdateGitignore fs t = none := by
  have hex := existsSync_of_isDirectory fs _ h
  have hr : readFileSync fs (pathJoin t ".gitignore") = none := by
    unfold isDirectory at h
    unfold readFileSync
    cases hn : fs.node (pathJoin t ".gitignore") with
    | none => rfl
    | some nd =>
      cases nd with
      | file c => simp [hn] at h
      | dir => rfl
  simp [smartUpdateGitignore, hex, hr]

theorem injectable_of_injectGovernance (r : RuleSource) (fs : FS) (t : Path)
    (x : FS × InjectResult) (h : injectGovernance r fs t = some x) :
    injectable fs t := by
  unfold injectGovernance writeFileSync at h
  by_cases w1 : writable fs (pathJoin t ".cursorrules") = true
  · simp only [w1, if_true] at h
    by_cases w2 : writable (putFile fs (pathJoin t ".cursorrules") r.content)
        (pathJoin t ".clinerules") = true
    · simp only [w2, if_true] at h
      rw [writable_pathJoin] at w1 w2
      rw [isDirectory_putFile_ne _ _ _ _ (pathJoin_ne_self t _),
        isDirectory_putFile_ne _ _ _ _ (pathJoin_ne t _ _ (by decide))] at w2
      simp only [Bool.and_eq_true, Bool.not_eq_true'] at w1 w2
      refine ⟨w1.1, w1.2, w2.2, ?_⟩
      cases hg : isDirectory fs (pathJoin t ".gitignore") with
      | false => rfl
      | true =>
        have hg2 : isDirectory (putFile (putFile fs (pathJoin t ".cursorrules") r.content)
            (pathJoin t ".clinerules") r.content) (pathJoin t ".gitignore") = true := by
          rw [isDirectory_putFile_ne _ _ _ _ (pathJoin_ne t _ _ (by decide)),
            isDirectory_putFile_ne _ _ _ _ (pathJoin_ne t _ _ (by decide)), hg]
        rw [smartUpdateGitignore_dir _ t hg2] at h
        cases h
    · simp [w2] at h
  · simp [w1] at h

theorem injectGovernance_state (r : RuleSource) (fs : FS) (t : Path)
    (x : FS × InjectResult) (h : injectGovernance r fs t = some x) :
    x.1 = mergedState (rulesWritten fs t r.content) t := by
  rw [injectGovernance_eq r fs t (injectable_of_injectGovernance r fs t x h)] at h
  simp only [Option.some.injEq] at h
  rw [← h]

theorem node_injected_frame (fs : FS) (t : Path) (c : Str) (q : Path)
    (h1 : q ≠ pathJoin t ".cursorrules") (h2 : q ≠ pathJoin t ".clinerules")
    (h3 : q ≠ pathJoin t ".gitignore") :
    (mergedState (rulesWritten fs t c) t).node q = fs.node q := by
  rw [node_mergedState_ne _ _ _ h3]
  unfold rulesWritten
  rw [node_putFile, if_neg h2, node_putFile, if_neg h1]

theorem entries_putFile_ne (fs : FS) (p : Path) (c : Str) (d : Path)
    (h : d ≠ p.dropLast) : (putFile fs p c).entries d = fs.entries d := by
  simp [putFile, h]

theorem entries_injected_frame (fs : FS) (t : Path) (c : Str) (d : Path)
    (h : d ≠ t) : (mergedState (rulesWritten fs t c) t).entries d = fs.entries d := by
  have e : (rulesWritten fs t c).entries d = fs.entries d := by
    unfold rulesWritten
    rw [entries_putFile_ne _ _ _ _ (by rw [pathJoin_dropLast]; exact h),
      entries_putFile_ne _ _ _ _ (by rw [pathJoin_dropLast]; exact h)]
  unfold mergedState
  simp only
  split
  · exact e
  · rw [entries_putFile_ne _ _ _ _ (by rw [pathJoin_dropLast]; exact h), e]

/-- A rule-surface file that already holds `c` still holds `c` after an
injection of `c` into any target. -/
theorem node_injected_persist (fs : FS) (t : Path) (c : Str) (x : Path) (a : String)
    (ha : a = ".cursorrules" ∨ a = ".clinerules")
    (h : fs.node (pathJoin x a) = some (.file c)) :
    (mergedState (rulesWritten fs t c) t).node (pathJoin x a) = some (.file c) := by
  have hg : pathJoin x a ≠ pathJoin t ".gitignore" := by
    intro e
    have := (pathJoin_inj _ _ _ _ e).2
    rcases ha with rfl | rfl <;> exact absurd this (by decide)
  rw [node_mergedState_ne _ _ _ hg]
  unfold rulesWritten
  rw [node_putFile]
  split
  · rfl
  · rw [node_putFile]
    split
    · rfl
    · exact h

theorem isDirectory_injected (fs : FS) (t : Path) (c : Str) (q : Path)
    (ht : injectable fs t) :
    isDirectory (mergedState (rulesWritten fs t c) t) q = isDirectory fs q := by
  rw [isDirectory_mergedState _ _ _ (injectable_rulesWritten fs t c ht).2.2.2]
  unfold rulesWritten
  by_cases h2 : q = pathJoin t ".clinerules"
  · rw [h2, isDirectory_putFile_same, ht.2.2.1]
  · rw [isDirectory_putFile_ne _ _ _ _ h2]
    by_cases h1 : q = pathJoin t ".cursorrules"
    · rw [h1, isDirectory_putFile_same, ht.2.1]
    · rw [isDirectory_putFile_ne _ _ _ _ h1]

theorem injectable_injected_other (fs : FS) (t u : Path) (c : Str)
    (ht : injectable fs t) (hu : injectable fs u) :
    injectable (mergedState (rulesWritten fs t c) t) u := by
  unfold injectable
  simp only [isDirectory_injected fs t c _ ht]
  exact hu

theorem injectEach_succeeds (r : RuleSource) (ds : List ReportEntry) :
    ∀ fs : FS, (∀ u ∈ ds, injectable fs u.path) →
      ∃ fs1, injectEach r ds fs = some fs1 := by
  induction ds with
  | nil => intro fs _; exact ⟨fs, rfl⟩
  | cons d ds ih =>
    intro fs h
    have hd := h d (List.mem_cons_self _ _)
    obtain ⟨fs1, e⟩ := ih (mergedState (rulesWritten fs d.path r.content) d.path)
      (fun u hu => injectable_injected_other fs d.path u.path r.content hd
        (h u (List.mem_cons_of_mem _ hu)))
    exact ⟨fs1, by simp only [injectEach, injectGovernance_eq r fs d.path hd, e]⟩

theorem injectEach_spec (r : RuleSource) (ds : List ReportEntry) :
    ∀ fs fs1 : FS, injectEach r ds fs = some fs1 →
      (∀ u ∈ ds,
        fs1.node (pathJoin u.path ".cursorrules") = some (.file r.content) ∧
        fs1.node (pathJoin u.path ".clinerules") = some (.file r.content)) ∧
      (∀ x a, (a = ".cursorrules" ∨ a = ".clinerules") →
        fs.node (pathJoin x a) = some (.file r.content) →
        fs1.node (pathJoin x a) = some (.file r.content)) ∧
      (∀ q, (∀ u ∈ ds, q ≠ pathJoin u.path ".cursorrules" ∧
          q ≠ pathJoin u.path ".clinerules" ∧ q ≠ pathJoin u.path ".gitignore") →
        fs1.node q = fs.node q) ∧
      (∀ d, (∀ u ∈ ds, d ≠ u.path) → fs1.entries d = fs.entries d) := by
  induction ds with
  | nil =>
    intro fs fs1 h
    simp only [injectEach, Option.some.injEq] at h
    subst h
    exact ⟨fun u hu => (by cases hu), fun _ _ _ h => h, fun _ _ => rfl, fun _ _ => rfl⟩
  | cons d ds ih =>
    intro fs fs1 h
    unfold injectEach at h
    cases hx : injectGovernance r fs d.path with
    | none => simp [hx] at h
    | some x =>
      have hs := injectGovernance_state r fs d.path x hx
      obtain ⟨x1, x2⟩ := x
      simp only [hx] at h
      simp only at hs
      subst hs
      obtain ⟨i1, i2, i3, i4⟩ := ih _ fs1 h
      refine ⟨?_, ?_, ?_, ?_⟩
      · intro u hu
        rcases List.mem_cons.mp hu with rfl | hu
        · exact ⟨i2 _ _ (Or.inl rfl) (node_injected_cursorrules fs _ _),
            i2 _ _ (Or.inr rfl) (node_injected_clinerules fs _ _)⟩
        · exact i1 u hu
      · intro y a ha hy
        exact i2 y a ha (node_injected_persist fs d.path r.content y a ha hy)
      · intro q hq
        rw [i3 q (fun u hu => hq u (List.mem_cons_of_mem _ hu))]
        obtain ⟨h1, h2, h3⟩ := hq d (List.mem_cons_self _ _)
        exact node_injected_frame fs d.path r.content q h1 h2 h3
      · intro e he
        rw [i4 e (fun u hu => he u (List.mem_cons_of_mem _ hu))]
        exact entries_injected_frame fs d.path r.content e (he d (List.mem_cons_self _ _))

theorem map_protect_eq (report : List ReportEntry) :
    report.map (fun d => if !d.isProtected then { d with isProtected := true } else d)
      = report.map (fun d => { d with isProtected := true }) := by
  apply List.map_congr_left
  intro d _
  cases hd : d.isProtected
  · simp
  · cases d
    simp at hd
    simp [hd]

theorem map_protect_of_all (report : List ReportEntry)
    (h : ∀ d ∈ report, d.isProtected = true) :
    report.map (fun d => { d with isProtected := true }) = report := by
  conv_rhs => rw [← List.map_id report]
  apply List.map_congr_left
  intro d hd
  have := h d hd
  cases d
  simp at this
  simp [this]

theorem auditFix_succeeds (rules : RuleSource) (fs : FS) (report : List ReportEntry)
    (h : ∀ e ∈ report, e.isProtected = false → injectable fs e.path) :
    ∃ fs1 report1, auditFix rules fs report = some (fs1, report1) := by
  unfold auditFix
  simp only
  split
  · exact ⟨_, _, rfl⟩
  · obtain ⟨fs1, e⟩ := injectEach_succeeds rules
      (report.filter (fun d => !d.isProtected)) fs (by
        intro u hu
        obtain ⟨h1, h2⟩ := List.mem_filter.mp hu
        exact h u h1 (by simpa using h2))
    rw [e]
    exact ⟨_, _, rfl⟩

/-- C10. Remediation correctness: when the `fix` command completes (no write
throws), the new report is the old one with every `protected` flag set, so it
has the same length, order and paths and every entry is protected; for every
entry that was unprotected, both rule-surface files in its directory hold
exactly the content of the active rules; and nothing else is touched: only the
three injected files of unprotected entries can change, so the files and the
listing of an already protected entry (whose directory is not also an
unprotected entry's) are as before. -/
theorem auditFix_spec (rules : RuleSource) (fs fs1 : FS)
    (report report1 : List ReportEntry)
    (h : auditFix rules fs report = some (fs1, report1)) :
    report1 = report.map (fun d => { d with isProtected := true }) ∧
    (∀ e ∈ report1, e.isProtected = true) ∧
    report1.length = report.length ∧
    report1.map (fun e => e.path) = report.map (fun e => e.path) ∧
    (∀ e ∈ report, e.isProtected = false →
      readFileSync fs1 (pathJoin e.path ".cursorrules") = some rules.content ∧
      readFileSync fs1 (pathJoin e.path ".clinerules") = some rules.content) ∧
    (∀ q, (∀ u ∈ report, u.isProtected = false →
        q ≠ pathJoin u.path ".cursorrules" ∧ q ≠ pathJoin u.path ".clinerules" ∧
        q ≠ pathJoin u.path ".gitignore") →
      fs1.node q = fs.node q) ∧
    (∀ e ∈ report, e.isProtected = true →
      (∀ u ∈ report, u.isProtected = false → u.path ≠ e.path) →
      (∀ name, fs1.node (pathJoin e.path name) = fs.node (pathJoin e.path name)) ∧
      fs1.entries e.path = fs.entries e.path) := by
  have hfin : ∀ r1 : List ReportEntry,
      r1 = report.map (fun d => { d with isProtected := true }) →
      (∀ e ∈ r1, e.isProtected = true) ∧ r1.length = report.length ∧
      r1.map (fun e => e.path) = report.map (fun e => e.path) := by
    intro r1 hr
    subst hr
    refine ⟨?_, by simp, ?_⟩
    · intro e he
      obtain ⟨d, _, rfl⟩ := List.mem_map.mp he
      rfl
    · rw [List.map_map]
      rfl
  have hframe : (∀ q, (∀ u ∈ report, u.isProtected = false →
        q ≠ pathJoin u.path ".cursorrules" ∧ q ≠ pathJoin u.path ".clinerules" ∧
        q ≠ pathJoin u.path ".gitignore") → fs1.node q = fs.node q) →
      (∀ d, (∀ u ∈ report, u.isProtected = false → d ≠ u.path) →
        fs1.entries d = fs.entries d) →
      ∀ e ∈ report, e.isProtected = true →
      (∀ u ∈ report, u.isProtected = false → u.path ≠ e.path) →
      (∀ name, fs1.node (pathJoin e.path name) = fs.node (pathJoin e.path name)) ∧
      fs1.entries e.path = fs.entries e.path := by
    intro hn he e _ _ hdis
    refine ⟨?_, he e.path (fun u hu hp => (hdis u hu hp).symm)⟩
    intro name
    apply hn
    intro u hu hp
    have hne := hdis u hu hp
    refine ⟨?_, ?_, ?_⟩ <;>
      exact fun e1 => hne (pathJoin_inj _ _ _ _ e1).1.symm
  unfold auditFix at h
  simp only at h
  split at h
  · next hlen =>
    simp only [Option.some.injEq, Prod.mk.injEq] at h
    obtain ⟨rfl, rfl⟩ := h
    have hall : ∀ d ∈ report, d.isProtected = true := by
      intro d hd
      have hnil := List.length_eq_zero.mp hlen
      cases hp : d.isProtected with
      | true => rfl
      | false =>
        have : d ∈ report.filter (fun d => !d.isProtected) :=
          List.mem_filter.mpr ⟨hd, by simp [hp]⟩
        rw [hnil] at this
        cases this
    have hr := (map_protect_of_all report hall).symm
    obtain ⟨a1, a2, a3⟩ := hfin report hr
    refine ⟨hr, a1, a2, a3, ?_, fun _ _ => rfl, ?_⟩
    · intro e he hp
      rw [hall e he] at hp
      cases hp
    · exact hframe (fun _ _ => rfl) (fun _ _ => rfl)
  · cases hie : injectEach rules (report.filter (fun d => !d.isProtected)) fs with
    | none => simp [hie] at h
    | some fs2 =>
      simp only [hie, Option.some.injEq, Prod.mk.injEq] at h
      obtain ⟨rfl, hr⟩ := h
      rw [map_protect_eq] at hr
      obtain ⟨a1, a2, a3⟩ := hfin report1 hr.symm
      obtain ⟨i1, _, i3, i4⟩ := injectEach_spec rules _ fs fs2 hie
      have hmem : ∀ u ∈ report, u.isProtected = false →
          u ∈ report.filter (fun d => !d.isProtected) :=
        fun u hu hp => List.mem_filter.mpr ⟨hu, by simp [hp]⟩
      have hn : ∀ q, (∀ u ∈ report, u.isProtected = false →
          q ≠ pathJoin u.path ".cursorrules" ∧ q ≠ pathJoin u.path ".clinerules" ∧
          q ≠ pathJoin u.path ".gitignore") → fs2.node q = fs.node q := by
        intro q hq
        apply i3
        intro u hu
        obtain ⟨h1, h2⟩ := List.mem_filter.mp hu
        exact hq u h1 (by simpa using h2)
      have he : ∀ d, (∀ u ∈ report, u.isProtected = false → d ≠ u.path) →
          fs2.entries d = fs.entries d := by
        intro d hd
        apply i4
        intro u hu
        obtain ⟨h1, h2⟩ := List.mem_filter.mp hu
        exact hd u h1 (by simpa using h2)
      refine ⟨hr.symm, a1, a2, a3, ?_, hn, hframe hn he⟩
      intro e he2 hp
      obtain ⟨n1, n2⟩ := i1 e (hmem e he2 hp)
      exact ⟨readFileSync_of_node _ _ _ n1, readFileSync_of_node _ _ _ n2⟩

theorem auditFix_spec_witness :
    ∃ fs1 report1, auditFix exRules exFSScan exReport = some (fs1, report1) ∧
      report1 = exReport.map (fun d => { d with isProtected := true }) ∧
      (∀ e ∈ report1, e.isProtected = true) ∧
      (∀ e ∈ exReport, e.isProtected = false →
        readFileSync fs1 (pathJoin e.path ".cursorrules") = some exRules.content ∧
        readFileSync fs1 (pathJoin e.path ".clinerules") = some exRules.content) := by
  obtain ⟨fs1, report1, h⟩ := auditFix_succeeds exRules exFSScan exReport (by decide)
  have t := auditFix_spec exRules exFSScan fs1 exReport report1 h
  exact ⟨fs1, report1, h, t.1, t.2.1, t.2.2.2.2.1⟩

/-! ## Scenarios, by evaluation -/

/-- Scenario D: an ignore-list holding `dist/` keeps that line first and once,
and gets the nine other patterns after it. -/
theorem scenario_ignore_list_with_dist :
    (smartUpdateGitignore exFS exProj).map (fun x => (ignoreContent x.1 exProj, x.2))
      = some ("dist/\nnode_modules/\n.clasp.json\ncreds.json\n.DS_Store\n*.log\npackage-lock.json\n.clinerules\n.cursorrules\nmy-rules.md\n".toList,
          ["node_modules/".toList, ".clasp.json".toList, "creds.json".toList,
           ".DS_Store".toList, "*.log".toList, "package-lock.json".toList,
           ".clinerules".toList, ".cursorrules".toList, "my-rules.md".toList]) := by
  decide

/-- Scenario C: a target without ignore-list gets exactly the ten patterns. -/
theorem scenario_no_ignore_list :
    (injectGovernance exRules exFSBare exProj).map
        (fun x => (ignoreContent x.1 exProj, x.2.ignoreUpdated))
      = some ("node_modules/\n.clasp.json\ncreds.json\n.DS_Store\ndist/\n*.log\npackage-lock.json\n.clinerules\n.cursorrules\nmy-rules.md\n".toList,
          "node_modules/, .clasp.json, creds.json, .DS_Store, dist/, *.log, package-lock.json, .clinerules, .cursorrules, my-rules.md".toList) := by
  decide

/-- Scenario A: without a template directory the catalog is the built-in one. -/
theorem scenario_builtin_catalog :
    (loadTemplates exFSBare exSelf).map (List.map (fun e => (e.id, e.source)))
      = some [("hybrid".toList, TemplateSource.builtin),
              ("architect".toList, TemplateSource.builtin),
              ("cost_saver".toList, TemplateSource.builtin)] := by
  decide

/-! ## Lemmas: `switchRuleSource` -/

theorem switchRuleSource_export (fs : FS) (selfDir : Path) (r : RuleSource)
    (templates : List Template)
    (hw : writable fs (pathJoin selfDir CUSTOM_RULES_FILENAME) = true) :
    switchRuleSource fs selfDir r templates (some (templates.length + 2))
      = some (putFile fs (pathJoin selfDir CUSTOM_RULES_FILENAME) r.content, r) := by
  have h1 : ¬ (1 ≤ ((templates.length : Int) + 2) ∧
      (templates.length : Int) + 2 ≤ templates.length) := by omega
  have h2 : ¬ ((templates.length : Int) + 2 = templates.length + 1) := by omega
  simp only [switchRuleSource, h1, h2, if_false, if_true, writeFileSync, hw]

theorem switchRuleSource_load (fs : FS) (selfDir : Path) (r : RuleSource)
    (templates : List Template) (c : Str)
    (hc : readFileSync fs (pathJoin selfDir CUSTOM_RULES_FILENAME) = some c) :
    switchRuleSource fs selfDir r templates (some (templates.length + 1))
      = some (fs, { sourceType := SourceType.file
                    name := "外部檔案 (my-rules.md)".toList
                    content := c }) := by
  have h1 : ¬ (1 ≤ ((templates.length : Int) + 1) ∧
      (templates.length : Int) + 1 ≤ templates.length) := by omega
  have hex : existsSync fs (pathJoin selfDir CUSTOM_RULES_FILENAME) = true := by
    unfold readFileSync at hc
    unfold existsSync
    cases hn : fs.node (pathJoin selfDir CUSTOM_RULES_FILENAME) with
    | none => simp [hn] at hc
    | some nd => rfl
  simp only [switchRuleSource, h1, if_false, if_true, hex, hc]
  rfl

theorem switchRuleSource_load_absent (fs : FS) (selfDir : Path) (r : RuleSource)
    (templates : List Template)
    (hex : existsSync fs (pathJoin selfDir CUSTOM_RULES_FILENAME) = false) :
    switchRuleSource fs selfDir r templates (some (templates.length + 1))
      = some (fs, r) := by
  have h1 : ¬ (1 ≤ ((templates.length : Int) + 1) ∧
      (templates.length : Int) + 1 ≤ templates.length) := by omega
  simp only [switchRuleSource, h1, if_false, if_true, hex, Bool.false_eq_true]

/-- C11. Export/load round trip of the rule source: when `my-rules.md` in the
tool directory can be written, the export choice of `switchRuleSource` under
the active rules `r` returns a state in which that file holds exactly
`r.content` and every other path is as before, and leaves the active rules
equal to `r`; the load choice taken right afterwards leaves the state as it is
and makes the active rules the source of type `file`, named after the file,
with content `r.content`. In any state where the file holds `c` the load choice
gives content `c`, and in any state where the file is absent it leaves both
the state and the active rules unchanged. -/
theorem switchRuleSource_export_load_round_trip (fs : FS) (selfDir : Path)
    (r : RuleSource) (templates : List Template)
    (hw : writable fs (pathJoin selfDir CUSTOM_RULES_FILENAME) = true) :
    (∃ fs1,
      switchRuleSource fs selfDir r templates (some (templates.length + 2))
        = some (fs1, r) ∧
      readFileSync fs1 (pathJoin selfDir CUSTOM_RULES_FILENAME) = some r.content ∧
      (∀ q, q ≠ pathJoin selfDir CUSTOM_RULES_FILENAME → fs1.node q = fs.node q) ∧
      switchRuleSource fs1 selfDir r templates (some (templates.length + 1))
        = some (fs1, { sourceType := SourceType.file
                       name := "外部檔案 (my-rules.md)".toList
                       content := r.content })) ∧
    (∀ (fs2 : FS) (a : RuleSource) (c : Str),
      readFileSync fs2 (pathJoin selfDir CUSTOM_RULES_FILENAME) = some c →
      switchRuleSource fs2 selfDir a templates (some (templates.length + 1))
        = some (fs2, { sourceType := SourceType.file
                       name := "外部檔案 (my-rules.md)".toList
                       content := c })) ∧
    (∀ (fs2 : FS) (a : RuleSource),
      existsSync fs2 (pathJoin selfDir CUSTOM_RULES_FILENAME) = false →
      switchRuleSource fs2 selfDir a templates (some (templates.length + 1))
        = some (fs2, a)) := by
  refine ⟨⟨_, switchRuleSource_export fs selfDir r templates hw, ?_, ?_, ?_⟩, ?_, ?_⟩
  · exact readFileSync_putFile_same _ _ _
  · intro q hq
    rw [node_putFile, if_neg hq]
  · exact switchRuleSource_load _ selfDir r templates r.content
      (readFileSync_putFile_same _ _ _)
  · intro fs2 a c hc
    exact switchRuleSource_load fs2 selfDir a templates c hc
  · intro fs2 a hex
    exact switchRuleSource_load_absent fs2 selfDir a templates hex

theorem switchRuleSource_export_load_round_trip_witness :
    writable exFSTool (pathJoin exSelf CUSTOM_RULES_FILENAME) = true ∧
    existsSync exFSTool (pathJoin exSelf CUSTOM_RULES_FILENAME) = false ∧
    ∃ fs1,
      switchRuleSource exFSTool exSelf exRules builtinCatalog (some 5)
        = some (fs1, exRules) ∧
      readFileSync fs1 (pathJoin exSelf CUSTOM_RULES_FILENAME) = some exRules.content ∧
      switchRuleSource fs1 exSelf exRules builtinCatalog (some 4)
        = some (fs1, { sourceType := SourceType.file
                       name := "外部檔案 (my-rules.md)".toList
                       content := exRules.content }) :=
  ⟨by decide, by decide,
    (switchRuleSource_export_load_round_trip exFSTool exSelf exRules builtinCatalog
      (by decide)).1.imp (fun _ h => ⟨h.1, h.2.1, h.2.2.2⟩)⟩

/-- The load choice on the example state, where `my-rules.md` is absent, and
an out-of-range choice, leave the active rules as they are. -/
theorem scenario_load_absent :
    (switchRuleSource exFSTool exSelf exRules builtinCatalog (some 4)).map (fun x => x.2)
      = some exRules ∧
    (switchRuleSource exFSTool exSelf exRules builtinCatalog (some 9)).map (fun x => x.2)
      = some exRules ∧
    (switchRuleSource exFSTool exSelf exRules builtinCatalog none).map (fun x => x.2)
      = some exRules := by
  decide

end GasGuard
